import Mathlib

/-!
Verification of the batch-upload orchestrator in `src/components/UploadModal.tsx`.

The development shallowly embeds the orchestration subsystem:
* `getUniqueFileName` — the name resolver (stem/extension split, collision
  loop with zero-padded counters, full-name check against the live queue
  and stem-only check against server history);
* `pollResult` / `pollRun` — the detached per-task poll loop;
* `step` — a small-step event semantics of `runBatchLogic`, `processItem`,
  `addFiles` and the debounced auto-run effect, with the React state
  (`queue`, `isGlobalLoading`, `shouldAutoRun`, `stats`) and the batch-run
  locals (`pendingIndices`, `activeCount`, `completedCount`) made explicit.

Machine strings are modelled as Lean `String`; the JavaScript number-to-string
conversion used for counter suffixes is modelled by the executable decimal
printer `natToDec`.
-/

namespace ScoreReading

/-- Decimal digits of a positive number, most significant first; `fuel`
bounds the recursion (`fuel = n` always suffices). Models the digit loop
behind JavaScript `String(n)` for a non-negative integer `n`. -/
def natToDecAux : Nat → Nat → List Char
  | 0, _ => []
  | fuel + 1, n =>
      if n = 0 then []
      else natToDecAux fuel (n / 10) ++ [Char.ofNat (48 + n % 10)]

/-- JavaScript `String(n)` for a non-negative integer `n`: its decimal
representation. -/
def natToDec (n : Nat) : String :=
  if n = 0 then "0" else ⟨natToDecAux n n⟩

/-- JavaScript `String(counter).padStart(2, '0')`: pad the decimal
representation on the left with `'0'` to length 2. -/
def pad2 (n : Nat) : String :=
  let s := natToDec n
  if s.length < 2 then "0" ++ s else s

/-- Index of the last `'.'` in a character list, if any
(JavaScript `fileName.lastIndexOf('.')`). -/
def lastDotIndex : List Char → Option Nat
  | [] => none
  | c :: cs =>
      match lastDotIndex cs with
      | some i => some (i + 1)
      | none => if c = '.' then some 0 else none

/-- Split a file name into stem and extension at the last dot, as in
`getUniqueFileName`: `name = fileName.substring(0, dotIndex)`,
`ext = fileName.substring(dotIndex)`; a dotless name keeps everything in
the stem and has empty extension. -/
def stemExt (fileName : String) : String × String :=
  match lastDotIndex fileName.data with
  | none => (fileName, "")
  | some i => (⟨fileName.data.take i⟩, ⟨fileName.data.drop i⟩)

/-- The collision check closed over by `getUniqueFileName`: the proposed
full name is compared against the live queue names, while the proposed
stem is compared against the server-history names (`existingNames`). -/
def isDuplicate (queueNames historyNames : List String)
    (nameToCheck baseNameToCheck : String) : Bool :=
  queueNames.contains nameToCheck || historyNames.contains baseNameToCheck

/-- The `while (isDuplicate ...)` loop of `getUniqueFileName`; the state is
the triple `(newName, newBaseName, counter)` and the result is the final
`(newName, newBaseName)` pair. `fuel` bounds the iteration count; the
fuel chosen by `getUniqueFileName` is proven sufficient below. -/
def resolveLoop (queueNames historyNames : List String) (name ext : String) :
    Nat → String → String → Nat → String × String
  | 0, newName, newBaseName, _ => (newName, newBaseName)
  | fuel + 1, newName, newBaseName, counter =>
      if isDuplicate queueNames historyNames newName newBaseName then
        let suffix := pad2 counter
        let nb := name ++ "_" ++ suffix
        resolveLoop queueNames historyNames name ext fuel (nb ++ ext) nb (counter + 1)
      else (newName, newBaseName)

/-- `getUniqueFileName(fileName, currentQueue)` from `UploadModal.tsx`,
with the queue abstracted to its list of file names and the
`existingNames` history set to a list of names. -/
def getUniqueFileName (fileName : String) (queueNames historyNames : List String) :
    String :=
  let split := stemExt fileName
  (resolveLoop queueNames historyNames split.1 split.2
    (queueNames.length + historyNames.length + 2) fileName split.1 1).1

/-- The candidate base name built in iteration `c` of the collision loop:
`name_NN` with `NN` the zero-padded counter. -/
def candBase (name : String) (c : Nat) : String := name ++ "_" ++ pad2 c

/-- The candidate full name built in iteration `c` of the collision loop. -/
def candName (name ext : String) (c : Nat) : String := candBase name c ++ ext

/-! ### Task and queue data model (`QueueItem` in `UploadModal.tsx`) -/

/-- The `status` union of `QueueItem`:
`'idle' | 'uploading' | 'queued' | 'processing' | 'done' | 'error'`. -/
inductive Status where
  | idle
  | uploading
  | queued
  | processing
  | done
  | error
deriving DecidableEq

/-- One `QueueItem`: the file (its name, and whether it is a real `File`
payload rather than a history record), the status, and the optional
`jobId`, `resultUrl` and `error` fields. -/
structure Task where
  name : String
  isFile : Bool
  status : Status
  jobId : Option String
  resultUrl : Option String
  error : Option String
deriving DecidableEq

/-- The guarded point update `if (copy[index]) copy[index] = f(copy[index])`
used by every `setQueue` call. -/
def updAt (q : List Task) (i : Nat) (f : Task → Task) : List Task :=
  match q.get? i with
  | some t => q.set i (f t)
  | none => q

/-! ### The detached poll loop of `processItem` -/

/-- Job status reported by the `/api/jobs/:id` endpoint
(`{queued, processing, completed, failed}` per the external contract). -/
inductive JobStatus where
  | queued
  | processing
  | completed
  | failed
deriving DecidableEq

/-- Parsed body of a status response: `status`, `result_url` and optional
`error` fields. -/
structure JobData where
  status : JobStatus
  result_url : String
  error : Option String
deriving DecidableEq

/-- One observed poll outcome: a parsed `200` body, or a non-ok HTTP
response (status code, body text, status text). -/
inductive PollResp where
  | ok (d : JobData)
  | httpError (code : Nat) (body : String) (statusText : String)
deriving DecidableEq

/-- Base URL prepended to `result_url` when a job completes. -/
def serverBase : String := "http://localhost:8000"

/-- One round of the `poll` closure in `processItem`: the update applied to
the task record and whether another poll is scheduled (`setTimeout(poll,
2000)`). A non-ok response throws and is caught as a task error; `completed`
stores the result location and stops; `failed` throws the server-supplied
reason, falling back to the stock message when the reason is absent or the
empty string (JavaScript `jobData.error || "Job failed on server"` treats
the empty string as falsy), and is caught as a task error; any other status
is written back verbatim and polling continues. -/
def pollResult (r : PollResp) : (Task → Task) × Bool :=
  match r with
  | .httpError code body statusText =>
      (fun t => { t with
        status := Status.error
        error := some ("Server Error " ++ natToDec code ++ ": "
          ++ (if body = "" then statusText else body)) }, false)
  | .ok d =>
      match d.status with
      | .completed =>
          (fun t => { t with
            status := Status.done
            resultUrl := some (serverBase ++ d.result_url) }, false)
      | .failed =>
          (fun t => { t with
            status := Status.error
            error := some (match d.error with
              | some e => if e = "" then "Job failed on server" else e
              | none => "Job failed on server") }, false)
      | .queued => (fun t => { t with status := Status.queued }, true)
      | .processing => (fun t => { t with status := Status.processing }, true)

/-- Run the poll loop of one task against a list of successive server
responses, stopping when the loop stops rescheduling itself. -/
def pollRun : Task → List PollResp → Task
  | t, [] => t
  | t, r :: rs =>
      let pr := pollResult r
      if pr.2 then pollRun (pr.1 t) rs else pr.1 t

/-- The successive task records produced by the poll loop (the reachable
states of the task during polling). -/
def pollTrace : Task → List PollResp → List Task
  | _, [] => []
  | t, r :: rs =>
      let pr := pollResult r
      if pr.2 then pr.1 t :: pollTrace (pr.1 t) rs else [pr.1 t]

/-! ### The upload request built by `processItem` -/

/-- The engine mode selector (`'auto' | 'pro'`). -/
inductive EngineMode where
  | auto
  | pro
deriving DecidableEq

/-- The observable content of the `FormData` POSTed to `/api/upload`. -/
structure UploadRequest where
  fileName : String
  text : String
  mode : EngineMode
deriving DecidableEq

/-- The request construction in `processItem`: the `text` field is the
stored reference text in Pro mode and the empty string in Auto mode. -/
def buildUploadRequest (engineMode : EngineMode) (referenceText : String)
    (fileName : String) : UploadRequest :=
  { fileName := fileName
    text := match engineMode with
      | .pro => referenceText
      | .auto => ""
    mode := engineMode }

/-! ### The bounded-concurrency batch run (`runBatchLogic`) -/

/-- `CONCURRENCY_LIMIT`: `parseInt(localStorage "concurrency_limit" || "2")`
sanitised by `storedLimit > 0 ? storedLimit : 2`; `none` models a missing or
unparsable stored value. -/
def effectiveLimit : Option Int → Nat
  | some v => if 0 < v then v.toNat else 2
  | none => 2

/-- `pendingIndices`: the indices of the queue entries whose status is
`idle`, in queue order, captured at invocation time. -/
def idleIndices (q : List Task) : List Nat :=
  (List.range q.length).filter (fun i =>
    match q.get? i with
    | some t => t.status == Status.idle
    | none => false)

/-- Result of the synchronous launch loop inside `processNext`: the updated
queue, `activeCount`, the indices with an outstanding upload call, and the
unconsumed tail of `pendingIndices`. -/
structure LoopOut where
  queue : List Task
  active : Nat
  inflight : List Nat
  rest : List Nat
deriving DecidableEq

/-- The `while (activeCount < CONCURRENCY_LIMIT && ...)` launch loop of
`processNext`. A snapshot entry whose backing item is missing or carries no
`File` payload is skipped without occupying a slot; otherwise the launched
`processItem` synchronously marks the item `uploading` and its upload call
becomes outstanding. -/
def launchLoop (limit : Nat) : List Task → Nat → List Nat → List Nat → LoopOut
  | q, active, infl, [] => ⟨q, active, infl, []⟩
  | q, active, infl, i :: rest =>
      if active < limit then
        match q.get? i with
        | some t =>
            if t.isFile then
              launchLoop limit (q.set i { t with status := Status.uploading }) (active + 1)
                (infl ++ [i]) rest
            else launchLoop limit q active infl rest
        | none => launchLoop limit q active infl rest
      else ⟨q, active, infl, i :: rest⟩

/-- `processNext`: first the resolution check (`all launched and none
active`), then the launch loop. The boolean reports resolution of the batch
promise. -/
def processNext (limit : Nat) (q : List Task) (active : Nat) (infl rest : List Nat) :
    Bool × LoopOut :=
  if rest = [] ∧ active = 0 then (true, ⟨q, active, infl, rest⟩)
  else (false, launchLoop limit q active infl rest)

/-- The locals of one `runBatchLogic` invocation: the concurrency limit in
effect, the snapshot `pendingIndices`, its unconsumed tail (the cursor
`nextPendingRefIndex` represented by the consumed initial segment being dropped),
`activeCount` and `completedCount`. -/
structure RunState where
  limit : Nat
  snapshot : List Nat
  rest : List Nat
  active : Nat
  completed : Nat
deriving DecidableEq

/-- The component state visible to the orchestration logic: the queue, the
history name set, the persisted concurrency setting, `isGlobalLoading`, the
locals of the in-flight run (if any), the outstanding upload calls, the
scheduled polls, the auto-run flag and the `stats` counters. -/
structure AppState where
  queue : List Task
  existingNames : List String
  storedLimit : Option Int
  isGlobalLoading : Bool
  run : Option RunState
  inflight : List Nat
  pendingPolls : List Nat
  shouldAutoRun : Bool
  statsCompleted : Nat
  statsTotal : Nat
deriving DecidableEq

/-- `runBatchLogic` up to its first suspension: the re-entrancy guard, the
idle snapshot, the early return when nothing is pending, and the initial
`processNext` launch round. -/
def invokeRun (s : AppState) : AppState :=
  if s.isGlobalLoading then s
  else
    let pending := idleIndices s.queue
    if pending = [] then { s with isGlobalLoading := false }
    else
      let limit := effectiveLimit s.storedLimit
      let out := (processNext limit s.queue 0 s.inflight pending).2
      { s with
        isGlobalLoading := true
        statsCompleted := 0
        statsTotal := pending.length
        queue := out.queue
        inflight := out.inflight
        run := some ⟨limit, pending, out.rest, out.active, 0⟩ }

/-- Completion of one outstanding upload call (the rest of `processItem`'s
upload phase plus the `.finally` continuation): apply the per-task update,
optionally schedule the task's first poll, free the slot, bump
`completedCount`, and run `processNext` — which either resolves the batch
or launches further tasks. -/
def finishUpload (s : AppState) (i : Nat) (upd : Task → Task) (addPoll : Bool) : AppState :=
  if i ∈ s.inflight then
    match s.run with
    | some r =>
        let q1 := updAt s.queue i upd
        let infl1 := s.inflight.erase i
        let polls1 := if addPoll then s.pendingPolls ++ [i] else s.pendingPolls
        let active1 := r.active - 1
        let completed1 := r.completed + 1
        let pn := processNext r.limit q1 active1 infl1 r.rest
        if pn.1 then
          { s with
            queue := q1
            inflight := infl1
            pendingPolls := polls1
            run := none
            isGlobalLoading := false
            statsCompleted := completed1 }
        else
          { s with
            queue := pn.2.queue
            inflight := pn.2.inflight
            pendingPolls := polls1
            run := some ⟨r.limit, r.snapshot, pn.2.rest, pn.2.active, completed1⟩
            statsCompleted := completed1 }
    | none => s
  else s

/-- The successful upload completion: `status: 'queued'`, store the job id. -/
def uploadOkUpd (jobId : String) (t : Task) : Task :=
  { t with status := Status.queued, jobId := some jobId }

/-- The failed upload completion: `status: 'error'`, store the message. -/
def uploadErrUpd (msg : String) (t : Task) : Task :=
  { t with status := Status.error, error := some msg }

/-- One scheduled poll firing with server response `r`: apply the update to
the polled index and reschedule iff the response was an in-progress status. -/
def stepPoll (s : AppState) (i : Nat) (r : PollResp) : AppState :=
  if i ∈ s.pendingPolls then
    let polls1 := s.pendingPolls.erase i
    let pr := pollResult r
    { s with
      queue := updAt s.queue i pr.1
      pendingPolls := if pr.2 then polls1 ++ [i] else polls1 }
  else s

/-- The loop body of `addFiles`: resolve each incoming file name against the
queue built so far (existing entries plus the new items) and the history
set, and create an idle task carrying a real payload. -/
def addFilesAux (historyNames : List String) : List String → List String → List Task
  | _, [] => []
  | queueNames, f :: fs =>
      let u := getUniqueFileName f queueNames historyNames
      { name := u
        isFile := true
        status := Status.idle
        jobId := none
        resultUrl := none
        error := none }
        :: addFilesAux historyNames (queueNames ++ [u]) fs

/-- `addFiles`: append the renamed idle items and set the auto-run flag. -/
def stepAddFiles (s : AppState) (names : List String) : AppState :=
  { s with
    queue := s.queue ++ addFilesAux s.existingNames (s.queue.map Task.name) names
    shouldAutoRun := true }

/-- The debounce timer firing: `runBatchLogic(); setShouldAutoRun(false)`. -/
def stepDebounce (s : AppState) : AppState :=
  { invokeRun s with shouldAutoRun := false }

/-- The events of the single-threaded event loop that drive the run/poll
machinery: a manual or debounced run invocation, an append, and the
resumptions of the suspended network calls. The component's removal
operations (`removeFile`, Clear All) are the extra constructors of the
extended alphabet `EventR` below; the claims about snapshot dispatch and
status monotonicity hold over this removal-free alphabet and are refuted
over `EventR`. -/
inductive Event where
  | invoke
  | debounceFire
  | addFiles (names : List String)
  | uploadOk (i : Nat) (jobId : String)
  | uploadErr (i : Nat) (msg : String)
  | pollResp (i : Nat) (r : PollResp)
deriving DecidableEq

/-- The small-step semantics: each event is one atomic segment of the
single-threaded event loop (resumptions for calls that are not outstanding
are no-ops). -/
def step (s : AppState) : Event → AppState
  | .invoke => invokeRun s
  | .debounceFire => stepDebounce s
  | .addFiles names => stepAddFiles s names
  | .uploadOk i jobId => finishUpload s i (uploadOkUpd jobId) true
  | .uploadErr i msg => finishUpload s i (uploadErrUpd msg) false
  | .pollResp i r => stepPoll s i r

/-- The component state right after mount: empty queue, no run, flag clear. -/
def initState (storedLimit : Option Int) (historyNames : List String) : AppState :=
  ⟨[], historyNames, storedLimit, false, none, [], [], false, 0, 0⟩

/-- Run a list of events from a state. -/
def runEvents (s : AppState) (es : List Event) : AppState := es.foldl step s

/-- Number of queue entries currently in their upload phase. -/
def countUploading (q : List Task) : Nat :=
  q.countP (fun t => t.status == Status.uploading)

/-- The confirmed branch of `removeFile`: after the user confirms, the task
is removed optimistically by position
(`setQueue(prev => prev.filter((_, i) => i !== index))`); the server
deletion request is network-only. No in-flight upload, pending poll or run
bookkeeping is cancelled — the source has no cancellation primitive. -/
def stepRemoveFile (s : AppState) (i : Nat) : AppState :=
  match s.queue.get? i with
  | some _ => { s with queue := s.queue.eraseIdx i }
  | none => s

/-- The confirmed branch of Clear All: the queue is emptied (`setQueue([])`);
the batch-deletion request is network-only, and nothing in flight is
cancelled. -/
def stepClearAll (s : AppState) : AppState :=
  { s with queue := [] }

/-- The full event alphabet of the component: the run/poll events plus the
confirmed removal operations, under which queue indices shift while the
suspended continuations keep their captured positional indices. -/
inductive EventR where
  | base (e : Event)
  | removeFile (i : Nat)
  | clearAll
deriving DecidableEq

/-- Small-step semantics over the full alphabet. -/
def stepR (s : AppState) : EventR → AppState
  | .base e => step s e
  | .removeFile i => stepRemoveFile s i
  | .clearAll => stepClearAll s

/-- Run a list of full-alphabet events from a state. -/
def runEventsR (s : AppState) (es : List EventR) : AppState := es.foldl stepR s

/-! ### Reachability invariant of the orchestrator -/

/-- Bookkeeping invariant tying the outstanding upload calls to the queue:
exactly the queue entries in their upload phase have an outstanding call,
and no call is outstanding twice. -/
def InflOk (q : List Task) (infl : List Nat) : Prop :=
  (∀ i ∈ infl, ∃ t, q.get? i = some t ∧ t.status = Status.uploading) ∧
  (∀ i t, q.get? i = some t → t.status = Status.uploading → i ∈ infl) ∧
  infl.Nodup

/-- Invariant of the unconsumed snapshot tail: entries denote existing,
still-idle tasks carrying a real payload, without repetition. -/
def RestOk (q : List Task) (rest : List Nat) : Prop :=
  (∀ i ∈ rest, ∃ t, q.get? i = some t ∧ t.status = Status.idle ∧ t.isFile = true) ∧
  rest.Nodup

/-- The master invariant of reachable orchestrator states. -/
structure Inv (s : AppState) : Prop where
  load_run : s.isGlobalLoading = s.run.isSome
  run_none_inflight : s.run = none → s.inflight = []
  infl_ok : InflOk s.queue s.inflight
  polls_status : ∀ i ∈ s.pendingPolls, ∀ t, s.queue.get? i = some t →
    t.status = Status.queued ∨ t.status = Status.processing
  polls_lt : ∀ i ∈ s.pendingPolls, i < s.queue.length
  polls_nodup : s.pendingPolls.Nodup
  idle_isFile : ∀ i t, s.queue.get? i = some t → t.status = Status.idle → t.isFile = true
  run_ok : ∀ r, s.run = some r →
    r.active = s.inflight.length ∧
    r.active ≤ r.limit ∧
    RestOk s.queue r.rest ∧
    (∀ i ∈ r.rest, i ∈ r.snapshot) ∧
    (∀ i ∈ r.snapshot, i < s.queue.length) ∧
    (∀ i ∈ r.snapshot, i ∉ r.rest → ∀ t, s.queue.get? i = some t →
      t.status ≠ Status.idle) ∧
    (∀ i ∈ s.inflight, i ∈ r.snapshot) ∧
    r.limit = effectiveLimit s.storedLimit

/-! ### Arithmetic facts about the decimal printer -/

/-- Decimal value of a digit string (proof device for injectivity). -/
def decVal (cs : List Char) : Nat :=
  cs.foldl (fun a c => 10 * a + (c.toNat - 48)) 0

lemma char_toNat_digit (d : Nat) (hd : d < 10) : (Char.ofNat (48 + d)).toNat = 48 + d := by
  interval_cases d <;> decide

lemma char_digit_ne_dot (d : Nat) (hd : d < 10) : Char.ofNat (48 + d) ≠ '.' := by
  interval_cases d <;> decide

lemma decVal_append_last (l : List Char) (c : Char) (a : Nat) :
    (l ++ [c]).foldl (fun a c => 10 * a + (c.toNat - 48)) a
      = 10 * (l.foldl (fun a c => 10 * a + (c.toNat - 48)) a) + (c.toNat - 48) := by
  rw [List.foldl_append]
  rfl

lemma decVal_natToDecAux (fuel : Nat) : ∀ n, n ≤ fuel → decVal (natToDecAux fuel n) = n := by
  induction fuel with
  | zero => intro n hn; interval_cases n; rfl
  | succ fuel ih =>
      intro n hn
      by_cases h0 : n = 0
      · subst h0; rfl
      · have hdiv : n / 10 ≤ fuel := by
          have h1 : n / 10 < n := Nat.div_lt_self (Nat.pos_of_ne_zero h0) (by norm_num)
          omega
        simp only [natToDecAux, h0, if_false]
        unfold decVal
        rw [decVal_append_last]
        have := ih (n / 10) hdiv
        unfold decVal at this
        rw [this, char_toNat_digit (n % 10) (Nat.mod_lt n (by norm_num))]
        omega

lemma decVal_natToDec (n : Nat) : decVal (natToDec n).data = n := by
  by_cases h0 : n = 0
  · subst h0; rfl
  · unfold natToDec
    simp only [h0, if_false]
    exact decVal_natToDecAux n n le_rfl

lemma decVal_pad2 (n : Nat) : decVal (pad2 n).data = n := by
  unfold pad2
  by_cases h : (natToDec n).length < 2
  · simp only [h, if_true]
    have hd : ("0" ++ natToDec n).data = '0' :: (natToDec n).data := rfl
    rw [hd]
    have he : decVal ('0' :: (natToDec n).data) = decVal (natToDec n).data := rfl
    rw [he, decVal_natToDec]
  · simp only [h, if_false]
    exact decVal_natToDec n

lemma pad2_inj {m n : Nat} (h : pad2 m = pad2 n) : m = n := by
  have hm := decVal_pad2 m
  rw [h, decVal_pad2] at hm
  omega

lemma natToDecAux_no_dot (fuel : Nat) : ∀ n, '.' ∉ natToDecAux fuel n := by
  induction fuel with
  | zero => intro n; simp [natToDecAux]
  | succ fuel ih =>
      intro n
      by_cases h0 : n = 0
      · subst h0; simp [natToDecAux]
      · simp only [natToDecAux, h0, if_false, List.mem_append, List.mem_singleton]
        rintro (h | h)
        · exact ih (n / 10) h
        · exact char_digit_ne_dot (n % 10) (Nat.mod_lt n (by norm_num)) h.symm

lemma natToDec_no_dot (n : Nat) : '.' ∉ (natToDec n).data := by
  by_cases h0 : n = 0
  · subst h0; decide
  · unfold natToDec
    simp only [h0, if_false]
    exact natToDecAux_no_dot n n

lemma pad2_no_dot (n : Nat) : '.' ∉ (pad2 n).data := by
  unfold pad2
  by_cases h : (natToDec n).length < 2
  · simp only [h, if_true]
    have hd : ("0" ++ natToDec n).data = '0' :: (natToDec n).data := rfl
    rw [hd]
    intro hm
    rcases List.mem_cons.mp hm with h1 | h1
    · exact absurd h1.symm (by decide)
    · exact natToDec_no_dot n h1
  · simp only [h, if_false]
    exact natToDec_no_dot n

/-! ### Stem/extension split facts -/

lemma lastDotIndex_eq_none {l : List Char} (h : '.' ∉ l) : lastDotIndex l = none := by
  induction l with
  | nil => rfl
  | cons c cs ih =>
      have hc : c ≠ '.' := fun hc => h (hc ▸ List.mem_cons_self c cs)
      have hcs : '.' ∉ cs := fun hm => h (List.mem_cons_of_mem c hm)
      simp [lastDotIndex, ih hcs, hc]

lemma lastDotIndex_append_dot (l1 l2 : List Char) (h2 : '.' ∉ l2) :
    lastDotIndex (l1 ++ '.' :: l2) = some l1.length := by
  induction l1 with
  | nil => simp [lastDotIndex, lastDotIndex_eq_none h2]
  | cons c cs ih => simp [lastDotIndex, ih]


lemma not_mem_of_lastDotIndex_eq_none : ∀ {l : List Char}, lastDotIndex l = none → '.' ∉ l := by
  intro l
  induction l with
  | nil => intro _ h; simp at h
  | cons c cs ih =>
      intro h hm
      simp only [lastDotIndex] at h
      cases hcs : lastDotIndex cs with
      | some j => rw [hcs] at h; simp at h
      | none =>
          rw [hcs] at h
          by_cases hc : c = '.'
          · simp [hc] at h
          · rcases List.mem_cons.mp hm with h1 | h1
            · exact hc h1.symm
            · exact ih hcs h1

lemma lastDotIndex_some {l : List Char} {i : Nat} (h : lastDotIndex l = some i) :
    l.drop i = '.' :: l.drop (i + 1) ∧ '.' ∉ l.drop (i + 1) := by
  induction l generalizing i with
  | nil => simp [lastDotIndex] at h
  | cons c cs ih =>
      simp only [lastDotIndex] at h
      cases hcs : lastDotIndex cs with
      | some j =>
          rw [hcs] at h
          cases h
          exact ih hcs
      | none =>
          rw [hcs] at h
          by_cases hc : c = '.'
          · simp only [hc, if_true, Option.some.injEq] at h
            subst h
            subst hc
            exact ⟨rfl, not_mem_of_lastDotIndex_eq_none hcs⟩
          · simp [hc] at h

/-- Shape of the stem/extension split: either the extension is empty and the
stem (the whole name) is dot-free, or the extension starts with a dot and has
no further dot. -/
lemma stemExt_shape (fileName : String) :
    (stemExt fileName = (fileName, "") ∧ '.' ∉ fileName.data) ∨
    (∃ rest, ((stemExt fileName).2).data = '.' :: rest ∧ '.' ∉ rest ∧
      fileName = (stemExt fileName).1 ++ (stemExt fileName).2) := by
  unfold stemExt
  cases h : lastDotIndex fileName.data with
  | none => exact Or.inl ⟨rfl, not_mem_of_lastDotIndex_eq_none h⟩
  | some i =>
      right
      obtain ⟨hdrop, hnd⟩ := lastDotIndex_some h
      refine ⟨fileName.data.drop (i + 1), ?_, hnd, ?_⟩
      · simpa using hdrop
      · apply String.ext
        simp [String.data_append, List.take_append_drop]

lemma stemExt_no_dot (s : String) (h : '.' ∉ s.data) : stemExt s = (s, "") := by
  unfold stemExt
  rw [lastDotIndex_eq_none h]

lemma stemExt_dot_ext (nb : String) (rest : List Char) (hrest : '.' ∉ rest) :
    stemExt (nb ++ ⟨'.' :: rest⟩) = (nb, ⟨'.' :: rest⟩) := by
  unfold stemExt
  have hdata : (nb ++ (⟨'.' :: rest⟩ : String)).data = nb.data ++ '.' :: rest :=
    String.data_append nb ⟨'.' :: rest⟩
  rw [hdata, lastDotIndex_append_dot nb.data rest hrest]
  have ht : (nb.data ++ '.' :: rest).take nb.data.length = nb.data := List.take_left nb.data _
  have hd : (nb.data ++ '.' :: rest).drop nb.data.length = '.' :: rest := List.drop_left nb.data _
  dsimp only
  rw [ht, hd]

lemma append_empty_str (s : String) : s ++ "" = s := by
  apply String.ext
  rw [String.data_append]
  simp

lemma candBase_inj {name : String} {c c' : Nat} (h : candBase name c = candBase name c') :
    c = c' := by
  unfold candBase at h
  have h2 := congrArg String.data h
  simp only [String.data_append, List.append_assoc] at h2
  have h3 := List.append_cancel_left h2
  have h4 := List.append_cancel_left h3
  exact pad2_inj (String.ext h4)

lemma candName_inj {name ext : String} {c c' : Nat}
    (h : candName name ext c = candName name ext c') : c = c' := by
  unfold candName at h
  have h2 := congrArg String.data h
  simp only [String.data_append] at h2
  have h3 := List.append_cancel_right h2
  exact candBase_inj (String.ext h3)

lemma candBase_no_dot {name : String} (hname : '.' ∉ name.data) (c : Nat) :
    '.' ∉ (candBase name c).data := by
  unfold candBase
  simp only [String.data_append, List.append_assoc, List.mem_append]
  rintro (h | h | h)
  · exact hname h
  · revert h; decide
  · exact pad2_no_dot c h

/-- Pigeonhole: among the first `|Q| + |H| + 1` counters, some candidate
collides with neither the queue names nor the history names. -/
lemma exists_fresh (Q H : List String) (name ext : String) :
    ∃ c, 1 ≤ c ∧ c ≤ Q.length + H.length + 1 ∧
      isDuplicate Q H (candName name ext c) (candBase name c) = false := by
  by_contra hcon
  push_neg at hcon
  have hdup : ∀ c ∈ Finset.Icc 1 (Q.length + H.length + 1),
      candName name ext c ∈ Q ∨ candBase name c ∈ H := by
    intro c hc
    rw [Finset.mem_Icc] at hc
    have hne := hcon c hc.1 hc.2
    have hb : isDuplicate Q H (candName name ext c) (candBase name c) = true := by
      cases hx : isDuplicate Q H (candName name ext c) (candBase name c) with
      | false => exact absurd hx hne
      | true => rfl
    simpa [isDuplicate, List.contains] using hb
  classical
  set L := Q.length + H.length with hL
  let f : Nat → String ⊕ String := fun c =>
    if candName name ext c ∈ Q then Sum.inl (candName name ext c) else Sum.inr (candBase name c)
  have hmaps : ∀ c ∈ Finset.Icc 1 (L + 1), f c ∈ Q.toFinset.disjSum H.toFinset := by
    intro c hc
    by_cases hq : candName name ext c ∈ Q
    · simp [f, hq]
    · have hh : candBase name c ∈ H := (hdup c hc).resolve_left hq
      simp [f, hq, hh]
  have hinj : Set.InjOn f (Finset.Icc 1 (L + 1)) := by
    intro a _ b _ hab
    by_cases ha : candName name ext a ∈ Q <;> by_cases hb : candName name ext b ∈ Q <;>
      simp only [f, ha, hb, if_true, if_false] at hab
    · exact candName_inj (Sum.inl.inj hab)
    · cases hab
    · cases hab
    · exact candBase_inj (Sum.inr.inj hab)
  have hcard := Finset.card_le_card_of_injOn f hmaps hinj
  rw [Nat.card_Icc, Finset.card_disjSum] at hcard
  have h1 := List.toFinset_card_le Q
  have h2 := List.toFinset_card_le H
  omega

/-- If some counter in the remaining fuel window yields a collision-free
candidate (or the current state is already collision-free), the loop output
is collision-free. -/
lemma resolveLoop_fresh (Q H : List String) (name ext : String) :
    ∀ fuel ctr nn nb,
      (isDuplicate Q H nn nb = false ∨
        ∃ c, ctr ≤ c ∧ c + 1 < ctr + fuel ∧
          isDuplicate Q H (candName name ext c) (candBase name c) = false) →
      isDuplicate Q H (resolveLoop Q H name ext fuel nn nb ctr).1
        (resolveLoop Q H name ext fuel nn nb ctr).2 = false := by
  intro fuel
  induction fuel with
  | zero =>
      intro ctr nn nb h
      rcases h with h | ⟨c, hc1, hc2, _⟩
      · simpa [resolveLoop] using h
      · omega
  | succ fuel ih =>
      intro ctr nn nb h
      by_cases hdup : isDuplicate Q H nn nb = true
      · have hres : resolveLoop Q H name ext (fuel + 1) nn nb ctr
            = resolveLoop Q H name ext fuel (candName name ext ctr) (candBase name ctr)
                (ctr + 1) := by
          simp [resolveLoop, hdup, candName, candBase]
        rw [hres]
        apply ih
        rcases h with h | ⟨c, hc1, hc2, hfresh⟩
        · rw [h] at hdup; cases hdup
        · rcases eq_or_lt_of_le hc1 with rfl | hlt
          · exact Or.inl hfresh
          · exact Or.inr ⟨c, hlt, by omega, hfresh⟩
      · have hf : isDuplicate Q H nn nb = false := by
          cases hb : isDuplicate Q H nn nb with
          | false => rfl
          | true => exact absurd hb hdup
        simp [resolveLoop, hf]

/-- The loop keeps the tracked base name equal to the stem of the tracked
full name. -/
lemma resolveLoop_stem (Q H : List String) (name ext : String)
    (hgood : ('.' ∉ name.data ∧ ext = "") ∨ (∃ rest, ext.data = '.' :: rest ∧ '.' ∉ rest)) :
    ∀ fuel ctr nn nb, stemExt nn = (nb, ext) →
      stemExt (resolveLoop Q H name ext fuel nn nb ctr).1
        = ((resolveLoop Q H name ext fuel nn nb ctr).2, ext) := by
  intro fuel
  induction fuel with
  | zero => intro ctr nn nb h; simpa [resolveLoop] using h
  | succ fuel ih =>
      intro ctr nn nb h
      by_cases hdup : isDuplicate Q H nn nb = true
      · have hres : resolveLoop Q H name ext (fuel + 1) nn nb ctr
            = resolveLoop Q H name ext fuel (candName name ext ctr) (candBase name ctr)
                (ctr + 1) := by
          simp [resolveLoop, hdup, candName, candBase]
        rw [hres]
        apply ih
        rcases hgood with ⟨hnd, hext⟩ | ⟨rest, hrest, hnd⟩
        · subst hext
          have hcb : candName name "" ctr = candBase name ctr := by
            unfold candName; exact append_empty_str _
          rw [hcb]
          exact stemExt_no_dot _ (candBase_no_dot hnd ctr)
        · have hexteq : ext = (⟨'.' :: rest⟩ : String) := String.ext hrest
          rw [hexteq]
          unfold candName
          exact stemExt_dot_ext (candBase name ctr) rest hnd
      · have hf : isDuplicate Q H nn nb = false := by
          cases hb : isDuplicate Q H nn nb with
          | false => rfl
          | true => exact absurd hb hdup
        simpa [resolveLoop, hf] using h

/-- The loop output is either the initial proposed name or one of the
counter-suffixed candidates with counter at least the initial counter. -/
lemma resolveLoop_result_shape (Q H : List String) (name ext : String) :
    ∀ fuel ctr nn nb,
      (resolveLoop Q H name ext fuel nn nb ctr).1 = nn ∨
      ∃ c, ctr ≤ c ∧ (resolveLoop Q H name ext fuel nn nb ctr).1 = candName name ext c := by
  intro fuel
  induction fuel with
  | zero => intro ctr nn nb; left; simp [resolveLoop]
  | succ fuel ih =>
      intro ctr nn nb
      by_cases hdup : isDuplicate Q H nn nb = true
      · have hres : resolveLoop Q H name ext (fuel + 1) nn nb ctr
            = resolveLoop Q H name ext fuel (candName name ext ctr) (candBase name ctr)
                (ctr + 1) := by
          simp [resolveLoop, hdup, candName, candBase]
        rw [hres]
        rcases ih (ctr + 1) (candName name ext ctr) (candBase name ctr) with h | ⟨c, hc, h⟩
        · exact Or.inr ⟨ctr, le_rfl, h⟩
        · exact Or.inr ⟨c, by omega, h⟩
      · have hf : isDuplicate Q H nn nb = false := by
          cases hb : isDuplicate Q H nn nb with
          | false => rfl
          | true => exact absurd hb hdup
        left; simp [resolveLoop, hf]

/-- Combined correctness of `getUniqueFileName`: the returned name avoids
both collision sets and its stem is the tracked base name. -/
lemma getUniqueFileName_spec (f : String) (Q H : List String) :
    getUniqueFileName f Q H ∉ Q ∧ (stemExt (getUniqueFileName f Q H)).1 ∉ H := by
  have hgood : ('.' ∉ ((stemExt f).1).data ∧ (stemExt f).2 = "") ∨
      (∃ rest, ((stemExt f).2).data = '.' :: rest ∧ '.' ∉ rest) := by
    rcases stemExt_shape f with ⟨heq, hnd⟩ | ⟨rest, hr, hnd, _⟩
    · left
      rw [heq]
      exact ⟨hnd, rfl⟩
    · right
      exact ⟨rest, hr, hnd⟩
  obtain ⟨c, hc1, hc2, hcf⟩ := exists_fresh Q H (stemExt f).1 (stemExt f).2
  have hfresh := resolveLoop_fresh Q H (stemExt f).1 (stemExt f).2
    (Q.length + H.length + 2) 1 f (stemExt f).1
    (Or.inr ⟨c, hc1, by omega, hcf⟩)
  have hstem := resolveLoop_stem Q H (stemExt f).1 (stemExt f).2 hgood
    (Q.length + H.length + 2) 1 f (stemExt f).1 rfl
  have hres : getUniqueFileName f Q H
      = (resolveLoop Q H (stemExt f).1 (stemExt f).2
          (Q.length + H.length + 2) f (stemExt f).1 1).1 := rfl
  rw [hres]
  simp only [isDuplicate, Bool.or_eq_false_iff, List.contains, List.elem_eq_mem,
    decide_eq_false_iff_not] at hfresh
  constructor
  · exact hfresh.1
  · have hsnd : (stemExt (resolveLoop Q H (stemExt f).1 (stemExt f).2
        (Q.length + H.length + 2) f (stemExt f).1 1).1).1
        = (resolveLoop Q H (stemExt f).1 (stemExt f).2
          (Q.length + H.length + 2) f (stemExt f).1 1).2 := by
      rw [hstem]
    rw [hsnd]
    exact hfresh.2

/-- C2: for every proposed name, every set of queue names and every set of
history stems, the resolver's result is not a full-name member of the queue
set and its stem is not a member of the history set; the queue comparison in
`isDuplicate` is by full name while the history comparison is by stem. -/
theorem resolver_avoids_queue_and_history (f : String) (Q H : List String) :
    getUniqueFileName f Q H ∉ Q ∧ (stemExt (getUniqueFileName f Q H)).1 ∉ H :=
  getUniqueFileName_spec f Q H

/-- C3: a non-colliding proposed name is returned unchanged; a colliding one
is returned as the original stem, an underscore, a zero-padded counter that
starts at `01`, and the original extension; two `essay.mp3` files added in
one batch with no history resolve to `essay.mp3` and `essay_01.mp3`; one
`essay.mp3` added when history contains the stem `essay` resolves to
`essay_01.mp3`. -/
theorem resolver_counter_format (f : String) (Q H : List String) :
    (isDuplicate Q H f (stemExt f).1 = false → getUniqueFileName f Q H = f) ∧
    (isDuplicate Q H f (stemExt f).1 = true →
      ∃ c, 1 ≤ c ∧ getUniqueFileName f Q H = candName (stemExt f).1 (stemExt f).2 c) ∧
    (addFilesAux [] [] ["essay.mp3", "essay.mp3"]).map Task.name
      = ["essay.mp3", "essay_01.mp3"] ∧
    getUniqueFileName "essay.mp3" [] ["essay"] = "essay_01.mp3" := by
  refine ⟨?_, ?_, by decide, by decide⟩
  · intro hnd
    have : getUniqueFileName f Q H
        = (resolveLoop Q H (stemExt f).1 (stemExt f).2
            (Q.length + H.length + 2) f (stemExt f).1 1).1 := rfl
    rw [this]
    have h2 : Q.length + H.length + 2 = (Q.length + H.length + 1) + 1 := rfl
    rw [h2]
    simp [resolveLoop, hnd]
  · intro hdup
    have hres : getUniqueFileName f Q H
        = (resolveLoop Q H (stemExt f).1 (stemExt f).2
            (Q.length + H.length + 2) f (stemExt f).1 1).1 := rfl
    have h2 : Q.length + H.length + 2 = (Q.length + H.length + 1) + 1 := rfl
    have hstep : resolveLoop Q H (stemExt f).1 (stemExt f).2
        (Q.length + H.length + 2) f (stemExt f).1 1
        = resolveLoop Q H (stemExt f).1 (stemExt f).2 (Q.length + H.length + 1)
            (candName (stemExt f).1 (stemExt f).2 1) (candBase (stemExt f).1 1) 2 := by
      rw [h2]
      simp [resolveLoop, hdup, candName, candBase]
    rcases resolveLoop_result_shape Q H (stemExt f).1 (stemExt f).2
        (Q.length + H.length + 1) 2 (candName (stemExt f).1 (stemExt f).2 1)
        (candBase (stemExt f).1 1) with h | ⟨c, hc, h⟩
    · exact ⟨1, le_rfl, by rw [hres, hstep, h]⟩
    · exact ⟨c, by omega, by rw [hres, hstep, h]⟩

lemma serverBase_append_ne_empty (u : String) : serverBase ++ u ≠ "" := by
  intro h
  have hd := congrArg String.data h
  rw [String.data_append] at hd
  have : serverBase.data = [] := (List.append_eq_nil.mp hd).1
  simp [serverBase] at this

/-- C4 (amended): a task whose poll loop observes `[queued, processing,
completed]` moves through Queued then Processing and ends Done with a
non-empty result location; one that observes `[queued, failed]` ends in
Error carrying the server-supplied reason provided that reason is a
non-empty string — an absent or empty reason is replaced by the stock
message `Job failed on server`, because the source's
`jobData.error || "Job failed on server"` treats the empty string as
falsy. -/
theorem poll_sequences (t : Task) (r1 r2 r3 r4 r5 : String) (e1 e2 e3 e4 : Option String)
    (loc : String) (reason : String) :
    ((pollTrace t [PollResp.ok ⟨JobStatus.queued, r1, e1⟩,
        PollResp.ok ⟨JobStatus.processing, r2, e2⟩,
        PollResp.ok ⟨JobStatus.completed, loc, none⟩]).map Task.status
      = [Status.queued, Status.processing, Status.done]) ∧
    ((pollRun t [PollResp.ok ⟨JobStatus.queued, r1, e1⟩,
        PollResp.ok ⟨JobStatus.processing, r2, e2⟩,
        PollResp.ok ⟨JobStatus.completed, loc, none⟩]).resultUrl
      = some (serverBase ++ loc)) ∧
    serverBase ++ loc ≠ "" ∧
    ((pollRun t [PollResp.ok ⟨JobStatus.queued, r3, e3⟩,
        PollResp.ok ⟨JobStatus.failed, r4, some reason⟩]).status
      = Status.error) ∧
    (reason ≠ "" →
      (pollRun t [PollResp.ok ⟨JobStatus.queued, r3, e3⟩,
          PollResp.ok ⟨JobStatus.failed, r4, some reason⟩]).error
        = some reason) ∧
    ((pollRun t [PollResp.ok ⟨JobStatus.queued, r5, e4⟩,
        PollResp.ok ⟨JobStatus.failed, r5, none⟩]).error
      = some "Job failed on server") := by
  refine ⟨rfl, rfl, serverBase_append_ne_empty loc, rfl, ?_, rfl⟩
  intro hr
  simp [pollRun, pollResult, hr]

/-- C10: in Auto mode the upload request's `text` field is the empty string,
so requests built from different stored reference texts coincide; in Pro
mode the `text` field carries the stored reference text. -/
theorem auto_mode_reference_noninterference (t1 t2 fileName : String) :
    buildUploadRequest EngineMode.auto t1 fileName
      = buildUploadRequest EngineMode.auto t2 fileName ∧
    (buildUploadRequest EngineMode.auto t1 fileName).text = "" ∧
    (buildUploadRequest EngineMode.pro t1 fileName).text = t1 :=
  ⟨rfl, rfl, rfl⟩

/-! ### Point-update and snapshot helper lemmas -/

lemma length_updAt (q : List Task) (i : Nat) (f : Task → Task) :
    (updAt q i f).length = q.length := by
  unfold updAt
  cases q.get? i with
  | none => rfl
  | some t => simp

lemma get?_updAt_ne (q : List Task) (i : Nat) (f : Task → Task) (j : Nat) (h : j ≠ i) :
    (updAt q i f).get? j = q.get? j := by
  unfold updAt
  cases q.get? i with
  | none => rfl
  | some t => rw [List.get?_set]; simp [Ne.symm h]

lemma get?_updAt_self (q : List Task) (i : Nat) (f : Task → Task) (t : Task)
    (h : q.get? i = some t) : (updAt q i f).get? i = some (f t) := by
  unfold updAt
  rw [h]
  rw [@List.get?_set _ (f t) i i q]
  simp [h]
  exact ⟨t, by rw [← List.get?_eq_getElem?]; exact h⟩

lemma mem_idleIndices {q : List Task} {i : Nat} :
    i ∈ idleIndices q ↔ ∃ t, q.get? i = some t ∧ t.status = Status.idle := by
  unfold idleIndices
  rw [List.mem_filter, List.mem_range]
  constructor
  · rintro ⟨hlt, hp⟩
    cases hq : q.get? i with
    | none => rw [hq] at hp; cases hp
    | some t =>
        rw [hq] at hp
        exact ⟨t, rfl, by simpa using hp⟩
  · rintro ⟨t, hq, hs⟩
    have hlt : i < q.length := by
      rcases List.get?_eq_some.mp hq with ⟨hl, _⟩
      exact hl
    exact ⟨hlt, by rw [hq]; simpa using hs⟩

/-! ### Launch-loop unfolding equations -/

lemma launchLoop_nil (limit : Nat) (q : List Task) (active : Nat) (infl : List Nat) :
    launchLoop limit q active infl [] = ⟨q, active, infl, []⟩ := rfl

lemma launchLoop_cons_full (limit : Nat) (q : List Task) (active : Nat) (infl : List Nat)
    (i : Nat) (rest : List Nat) (hlt : ¬ active < limit) :
    launchLoop limit q active infl (i :: rest) = ⟨q, active, infl, i :: rest⟩ := by
  simp only [launchLoop, if_neg hlt]

lemma launchLoop_cons_none (limit : Nat) (q : List Task) (active : Nat) (infl : List Nat)
    (i : Nat) (rest : List Nat) (hlt : active < limit) (hq : q.get? i = none) :
    launchLoop limit q active infl (i :: rest) = launchLoop limit q active infl rest := by
  simp only [launchLoop, if_pos hlt]
  rw [hq]

lemma launchLoop_cons_skip (limit : Nat) (q : List Task) (active : Nat) (infl : List Nat)
    (i : Nat) (rest : List Nat) (t : Task) (hlt : active < limit) (hq : q.get? i = some t)
    (hf : ¬ t.isFile = true) :
    launchLoop limit q active infl (i :: rest) = launchLoop limit q active infl rest := by
  simp only [launchLoop, if_pos hlt]
  rw [hq]
  simp only [if_neg hf]

lemma launchLoop_cons_launch (limit : Nat) (q : List Task) (active : Nat) (infl : List Nat)
    (i : Nat) (rest : List Nat) (t : Task) (hlt : active < limit) (hq : q.get? i = some t)
    (hf : t.isFile = true) :
    launchLoop limit q active infl (i :: rest)
      = launchLoop limit (q.set i { t with status := Status.uploading }) (active + 1)
          (infl ++ [i]) rest := by
  simp only [launchLoop, if_pos hlt]
  rw [hq]
  simp only [if_pos hf]

/-! ### Launch-loop specification lemmas -/

lemma launchLoop_queue_length (limit : Nat) :
    ∀ rest q active infl, (launchLoop limit q active infl rest).queue.length = q.length := by
  intro rest
  induction rest with
  | nil => intro q active infl; rw [launchLoop_nil]
  | cons i rest ih =>
      intro q active infl
      by_cases hlt : active < limit
      · cases hq : q.get? i with
        | none => rw [launchLoop_cons_none limit q active infl i rest hlt hq]; exact ih q active infl
        | some t =>
            by_cases hf : t.isFile = true
            · rw [launchLoop_cons_launch limit q active infl i rest t hlt hq hf]
              rw [ih]
              simp
            · rw [launchLoop_cons_skip limit q active infl i rest t hlt hq hf]
              exact ih q active infl
      · rw [launchLoop_cons_full limit q active infl i rest hlt]

lemma launchLoop_frame (limit : Nat) :
    ∀ rest q active infl j, j ∉ rest →
      (launchLoop limit q active infl rest).queue.get? j = q.get? j := by
  intro rest
  induction rest with
  | nil => intro q active infl j _; rw [launchLoop_nil]
  | cons i rest ih =>
      intro q active infl j hj
      have hji : j ≠ i := fun h => hj (h ▸ List.mem_cons_self i rest)
      have hjr : j ∉ rest := fun h => hj (List.mem_cons_of_mem i h)
      by_cases hlt : active < limit
      · cases hq : q.get? i with
        | none => rw [launchLoop_cons_none limit q active infl i rest hlt hq]; exact ih _ _ _ _ hjr
        | some t =>
            by_cases hf : t.isFile = true
            · rw [launchLoop_cons_launch limit q active infl i rest t hlt hq hf]
              rw [ih _ _ _ _ hjr]
              rw [List.get?_set]
              simp [Ne.symm hji]
            · rw [launchLoop_cons_skip limit q active infl i rest t hlt hq hf]
              exact ih _ _ _ _ hjr
      · rw [launchLoop_cons_full limit q active infl i rest hlt]

lemma launchLoop_rest_sublist (limit : Nat) :
    ∀ rest q active infl, (launchLoop limit q active infl rest).rest.Sublist rest := by
  intro rest
  induction rest with
  | nil => intro q active infl; rw [launchLoop_nil]
  | cons i rest ih =>
      intro q active infl
      by_cases hlt : active < limit
      · cases hq : q.get? i with
        | none =>
            rw [launchLoop_cons_none limit q active infl i rest hlt hq]
            exact (ih q active infl).trans (List.sublist_cons_self i rest)
        | some t =>
            by_cases hf : t.isFile = true
            · rw [launchLoop_cons_launch limit q active infl i rest t hlt hq hf]
              exact (ih _ _ _).trans (List.sublist_cons_self i rest)
            · rw [launchLoop_cons_skip limit q active infl i rest t hlt hq hf]
              exact (ih q active infl).trans (List.sublist_cons_self i rest)
      · rw [launchLoop_cons_full limit q active infl i rest hlt]

lemma launchLoop_inflight_shape (limit : Nat) :
    ∀ rest q active infl, ∃ launched,
      (launchLoop limit q active infl rest).inflight = infl ++ launched ∧
      ∀ j ∈ launched, j ∈ rest := by
  intro rest
  induction rest with
  | nil => intro q active infl; exact ⟨[], by rw [launchLoop_nil]; simp, by simp⟩
  | cons i rest ih =>
      intro q active infl
      by_cases hlt : active < limit
      · cases hq : q.get? i with
        | none =>
            obtain ⟨L, hL, hmem⟩ := ih q active infl
            refine ⟨L, ?_, fun j hj => List.mem_cons_of_mem i (hmem j hj)⟩
            rw [launchLoop_cons_none limit q active infl i rest hlt hq]
            exact hL
        | some t =>
            by_cases hf : t.isFile = true
            · obtain ⟨L, hL, hmem⟩ := ih (q.set i { t with status := Status.uploading })
                (active + 1) (infl ++ [i])
              refine ⟨i :: L, ?_, ?_⟩
              · rw [launchLoop_cons_launch limit q active infl i rest t hlt hq hf]
                rw [hL]
                simp
              · intro j hj
                rcases List.mem_cons.mp hj with h | h
                · exact h ▸ List.mem_cons_self i rest
                · exact List.mem_cons_of_mem i (hmem j h)
            · obtain ⟨L, hL, hmem⟩ := ih q active infl
              refine ⟨L, ?_, fun j hj => List.mem_cons_of_mem i (hmem j hj)⟩
              rw [launchLoop_cons_skip limit q active infl i rest t hlt hq hf]
              exact hL
      · exact ⟨[], by rw [launchLoop_cons_full limit q active infl i rest hlt]; simp, by simp⟩

lemma launchLoop_active_eq (limit : Nat) :
    ∀ rest q active infl, active = infl.length →
      (launchLoop limit q active infl rest).active
        = (launchLoop limit q active infl rest).inflight.length := by
  intro rest
  induction rest with
  | nil => intro q active infl h; rw [launchLoop_nil]; exact h
  | cons i rest ih =>
      intro q active infl h
      by_cases hlt : active < limit
      · cases hq : q.get? i with
        | none =>
            rw [launchLoop_cons_none limit q active infl i rest hlt hq]
            exact ih q active infl h
        | some t =>
            by_cases hf : t.isFile = true
            · rw [launchLoop_cons_launch limit q active infl i rest t hlt hq hf]
              exact ih _ _ _ (by simp [h])
            · rw [launchLoop_cons_skip limit q active infl i rest t hlt hq hf]
              exact ih q active infl h
      · rw [launchLoop_cons_full limit q active infl i rest hlt]; exact h

lemma launchLoop_active_le (limit : Nat) :
    ∀ rest q active infl, active ≤ limit →
      (launchLoop limit q active infl rest).active ≤ limit := by
  intro rest
  induction rest with
  | nil => intro q active infl h; rw [launchLoop_nil]; exact h
  | cons i rest ih =>
      intro q active infl h
      by_cases hlt : active < limit
      · cases hq : q.get? i with
        | none =>
            rw [launchLoop_cons_none limit q active infl i rest hlt hq]
            exact ih q active infl h
        | some t =>
            by_cases hf : t.isFile = true
            · rw [launchLoop_cons_launch limit q active infl i rest t hlt hq hf]
              exact ih _ _ _ hlt
            · rw [launchLoop_cons_skip limit q active infl i rest t hlt hq hf]
              exact ih q active infl h
      · rw [launchLoop_cons_full limit q active infl i rest hlt]; exact h

lemma launchLoop_point (limit : Nat) :
    ∀ rest q active infl, ∀ j,
      (launchLoop limit q active infl rest).queue.get? j = q.get? j ∨
      ∃ t, q.get? j = some t ∧
        (launchLoop limit q active infl rest).queue.get? j
          = some { t with status := Status.uploading } := by
  intro rest
  induction rest with
  | nil => intro q active infl j; rw [launchLoop_nil]; exact Or.inl rfl
  | cons i rest ih =>
      intro q active infl j
      by_cases hlt : active < limit
      · cases hq : q.get? i with
        | none =>
            rw [launchLoop_cons_none limit q active infl i rest hlt hq]
            exact ih q active infl j
        | some t =>
            by_cases hf : t.isFile = true
            · rw [launchLoop_cons_launch limit q active infl i rest t hlt hq hf]
              by_cases hji : j = i
              · subst hji
                rcases ih (q.set j { t with status := Status.uploading }) (active + 1)
                    (infl ++ [j]) j with h | ⟨t1, ht1, h⟩
                · right
                  refine ⟨t, hq, ?_⟩
                  rw [h]
                  rw [List.get?_set]
                  simp [hq]
                  exact ⟨t, by rw [← List.get?_eq_getElem?]; exact hq⟩
                · right
                  refine ⟨t, hq, ?_⟩
                  rw [List.get?_set] at ht1
                  simp [hq] at ht1
                  rw [h, ← ht1.2]
              · have hij : i ≠ j := fun hh => hji hh.symm
                rcases ih (q.set i { t with status := Status.uploading }) (active + 1)
                    (infl ++ [i]) j with h | ⟨t1, ht1, h⟩
                · left
                  rw [h]
                  rw [List.get?_set]
                  simp [hij]
                · right
                  rw [List.get?_set] at ht1
                  simp [hij] at ht1
                  exact ⟨t1, by rw [List.get?_eq_getElem?]; exact ht1, h⟩
            · rw [launchLoop_cons_skip limit q active infl i rest t hlt hq hf]
              exact ih q active infl j
      · rw [launchLoop_cons_full limit q active infl i rest hlt]
        exact Or.inl rfl

lemma launchLoop_rest_point (limit : Nat) :
    ∀ rest q active infl, rest.Nodup → ∀ j ∈ (launchLoop limit q active infl rest).rest,
      (launchLoop limit q active infl rest).queue.get? j = q.get? j := by
  intro rest
  induction rest with
  | nil => intro q active infl _ j _; rw [launchLoop_nil]
  | cons i rest ih =>
      intro q active infl hnd j hj
      have hndt : rest.Nodup := (List.nodup_cons.mp hnd).2
      have hni : i ∉ rest := (List.nodup_cons.mp hnd).1
      by_cases hlt : active < limit
      · cases hq : q.get? i with
        | none =>
            rw [launchLoop_cons_none limit q active infl i rest hlt hq]
            rw [launchLoop_cons_none limit q active infl i rest hlt hq] at hj
            exact ih q active infl hndt j hj
        | some t =>
            by_cases hf : t.isFile = true
            · rw [launchLoop_cons_launch limit q active infl i rest t hlt hq hf]
              rw [launchLoop_cons_launch limit q active infl i rest t hlt hq hf] at hj
              have hjr : j ∈ rest :=
                List.Sublist.mem hj (launchLoop_rest_sublist limit rest _ _ _)
              have hij : i ≠ j := fun hh => hni (hh ▸ hjr)
              rw [ih _ _ _ hndt j hj]
              rw [List.get?_set]
              simp [hij]
            · rw [launchLoop_cons_skip limit q active infl i rest t hlt hq hf]
              rw [launchLoop_cons_skip limit q active infl i rest t hlt hq hf] at hj
              exact ih q active infl hndt j hj
      · rw [launchLoop_cons_full limit q active infl i rest hlt]

lemma launchLoop_consumed (limit : Nat) :
    ∀ rest q active infl, RestOk q rest →
      ∀ j ∈ rest, j ∉ (launchLoop limit q active infl rest).rest →
        ∃ t, q.get? j = some t ∧
          (launchLoop limit q active infl rest).queue.get? j
            = some { t with status := Status.uploading } := by
  intro rest
  induction rest with
  | nil => intro q active infl _ j hj; cases hj
  | cons i rest ih =>
      intro q active infl hro j hj hout
      obtain ⟨hmem, hnd⟩ := hro
      have hndt : rest.Nodup := (List.nodup_cons.mp hnd).2
      have hni : i ∉ rest := (List.nodup_cons.mp hnd).1
      obtain ⟨t, hq, hidle, hfile⟩ := hmem i (List.mem_cons_self i rest)
      by_cases hlt : active < limit
      · rw [launchLoop_cons_launch limit q active infl i rest t hlt hq hfile] at hout ⊢
        have hro1 : RestOk (q.set i { t with status := Status.uploading }) rest := by
          constructor
          · intro k hk
            obtain ⟨u, hu, hui, huf⟩ := hmem k (List.mem_cons_of_mem i hk)
            have hki : i ≠ k := fun h => hni (h ▸ hk)
            refine ⟨u, ?_, hui, huf⟩
            rw [List.get?_set]
            simp [hki]
            rw [List.get?_eq_getElem?] at hu
            exact hu
          · exact hndt
        rcases List.mem_cons.mp hj with rfl | hjr
        · refine ⟨t, hq, ?_⟩
          rw [launchLoop_frame limit rest _ _ _ j hni]
          rw [List.get?_set]
          simp
          exact ⟨t, by rw [← List.get?_eq_getElem?]; exact hq⟩
        · have hji : i ≠ j := fun h => hni (h ▸ hjr)
          obtain ⟨u, hu, hres⟩ := ih _ (active + 1) (infl ++ [i]) hro1 j hjr hout
          refine ⟨u, ?_, hres⟩
          rw [List.get?_set] at hu
          simp [hji] at hu
          rw [List.get?_eq_getElem?]
          exact hu
      · rw [launchLoop_cons_full limit q active infl i rest hlt] at hout
        exact absurd hj hout

lemma launchLoop_inflOk (limit : Nat) :
    ∀ rest q active infl, InflOk q infl → RestOk q rest →
      InflOk (launchLoop limit q active infl rest).queue
        (launchLoop limit q active infl rest).inflight := by
  intro rest
  induction rest with
  | nil => intro q active infl hio _; rw [launchLoop_nil]; exact hio
  | cons i rest ih =>
      intro q active infl hio hro
      obtain ⟨hmem, hnd⟩ := hro
      have hndt : rest.Nodup := (List.nodup_cons.mp hnd).2
      have hni : i ∉ rest := (List.nodup_cons.mp hnd).1
      obtain ⟨t, hq, hidle, hfile⟩ := hmem i (List.mem_cons_self i rest)
      by_cases hlt : active < limit
      · rw [launchLoop_cons_launch limit q active infl i rest t hlt hq hfile]
        have hiinf : i ∉ infl := by
          intro hmemi
          obtain ⟨u, hu, hust⟩ := hio.1 i hmemi
          rw [hq] at hu
          cases hu
          rw [hidle] at hust
          cases hust
        have hio1 : InflOk (q.set i { t with status := Status.uploading }) (infl ++ [i]) := by
          refine ⟨?_, ?_, ?_⟩
          · intro k hk
            rcases List.mem_append.mp hk with hk | hk
            · obtain ⟨u, hu, hust⟩ := hio.1 k hk
              have hki : i ≠ k := fun h => hiinf (h ▸ hk)
              refine ⟨u, ?_, hust⟩
              rw [List.get?_set]
              simp [hki]
              rw [List.get?_eq_getElem?] at hu
              exact hu
            · rcases List.mem_singleton.mp hk with rfl
              refine ⟨{ t with status := Status.uploading }, ?_, rfl⟩
              rw [List.get?_set]
              simp
              exact ⟨t, by rw [← List.get?_eq_getElem?]; exact hq⟩
          · intro k u hu hust
            by_cases hki : k = i
            · subst hki
              exact List.mem_append.mpr (Or.inr (List.mem_singleton.mpr rfl))
            · have hik : i ≠ k := fun h => hki h.symm
              rw [List.get?_set] at hu
              simp [hik] at hu
              rw [← List.get?_eq_getElem?] at hu
              exact List.mem_append.mpr (Or.inl (hio.2.1 k u hu hust))
          · rw [List.nodup_append]
            exact ⟨hio.2.2, List.nodup_singleton i, by simp [hiinf]⟩
        have hro1 : RestOk (q.set i { t with status := Status.uploading }) rest := by
          constructor
          · intro k hk
            obtain ⟨u, hu, hui, huf⟩ := hmem k (List.mem_cons_of_mem i hk)
            have hki : i ≠ k := fun h => hni (h ▸ hk)
            refine ⟨u, ?_, hui, huf⟩
            rw [List.get?_set]
            simp [hki]
            rw [List.get?_eq_getElem?] at hu
            exact hu
          · exact hndt
        exact ih _ (active + 1) (infl ++ [i]) hio1 hro1
      · rw [launchLoop_cons_full limit q active infl i rest hlt]
        exact hio

lemma launchLoop_congr (limit : Nat) :
    ∀ rest q q' active infl, (∀ j ∈ rest, q.get? j = q'.get? j) →
      (launchLoop limit q active infl rest).active
          = (launchLoop limit q' active infl rest).active ∧
      (launchLoop limit q active infl rest).inflight
          = (launchLoop limit q' active infl rest).inflight ∧
      (launchLoop limit q active infl rest).rest
          = (launchLoop limit q' active infl rest).rest ∧
      (∀ j, q.get? j = q'.get? j →
        (launchLoop limit q active infl rest).queue.get? j
          = (launchLoop limit q' active infl rest).queue.get? j) := by
  intro rest
  induction rest with
  | nil =>
      intro q q' active infl hagree
      rw [launchLoop_nil, launchLoop_nil]
      exact ⟨rfl, rfl, rfl, fun j hj => hj⟩
  | cons i rest ih =>
      intro q q' active infl hagree
      have hagreet : ∀ j ∈ rest, q.get? j = q'.get? j :=
        fun j hj => hagree j (List.mem_cons_of_mem i hj)
      have hi : q.get? i = q'.get? i := hagree i (List.mem_cons_self i rest)
      by_cases hlt : active < limit
      · cases hq : q.get? i with
        | none =>
            have hq' : q'.get? i = none := by rw [← hi]; exact hq
            rw [launchLoop_cons_none limit q active infl i rest hlt hq,
              launchLoop_cons_none limit q' active infl i rest hlt hq']
            exact ih q q' active infl hagreet
        | some t =>
            have hq' : q'.get? i = some t := by rw [← hi]; exact hq
            by_cases hf : t.isFile = true
            · rw [launchLoop_cons_launch limit q active infl i rest t hlt hq hf,
                launchLoop_cons_launch limit q' active infl i rest t hlt hq' hf]
              have hagree1 : ∀ j ∈ rest,
                  (q.set i { t with status := Status.uploading }).get? j
                    = (q'.set i { t with status := Status.uploading }).get? j := by
                intro j hj
                rw [List.get?_set, List.get?_set]
                by_cases hij : i = j
                · subst hij
                  simp [List.get?_eq_getElem?] at hi
                  simp [hi]
                · simp [hij]
                  rw [← List.get?_eq_getElem?, ← List.get?_eq_getElem?]
                  exact hagreet j hj
              obtain ⟨h1, h2, h3, h4⟩ := ih _ _ (active + 1) (infl ++ [i]) hagree1
              refine ⟨h1, h2, h3, ?_⟩
              intro j hj
              apply h4
              rw [List.get?_set, List.get?_set]
              by_cases hij : i = j
              · subst hij
                simp [List.get?_eq_getElem?] at hi
                simp [hi]
              · simp [hij]
                rw [← List.get?_eq_getElem?, ← List.get?_eq_getElem?]
                exact hj
            · rw [launchLoop_cons_skip limit q active infl i rest t hlt hq hf,
                launchLoop_cons_skip limit q' active infl i rest t hlt hq' hf]
              exact ih q q' active infl hagreet
      · rw [launchLoop_cons_full limit q active infl i rest hlt,
          launchLoop_cons_full limit q' active infl i rest hlt]
        exact ⟨rfl, rfl, rfl, fun j hj => hj⟩

/-! ### Counting uploads -/

lemma countP_eq_countP_range (p : Task → Bool) : ∀ q : List Task,
    q.countP p = (List.range q.length).countP (fun i =>
      match q.get? i with
      | some t => p t
      | none => false) := by
  intro q
  induction q with
  | nil => rfl
  | cons t q ih =>
      rw [List.countP_cons]
      have hr : List.range (t :: q).length = 0 :: (List.range q.length).map Nat.succ := by
        simp [List.range_succ_eq_map]
      rw [hr, List.countP_cons]
      have hmap : ((List.range q.length).map Nat.succ).countP (fun i =>
          match (t :: q).get? i with
          | some u => p u
          | none => false)
          = (List.range q.length).countP (fun i =>
            match q.get? i with
            | some u => p u
            | none => false) := by
        rw [List.countP_map]
        apply List.countP_congr
        intro i _
        rfl
      rw [hmap, ih]
      have h0 : (match (t :: q).get? 0 with
          | some u => p u
          | none => false) = p t := rfl
      rw [h0]

lemma countUploading_eq_inflight (q : List Task) (infl : List Nat) (h : InflOk q infl) :
    countUploading q = infl.length := by
  obtain ⟨hmem, hconv, hnd⟩ := h
  have hpred : ∀ i, (match q.get? i with
      | some t => t.status == Status.uploading
      | none => false) = true ↔ i ∈ infl := by
    intro i
    constructor
    · intro hp
      cases hq : q.get? i with
      | none => rw [hq] at hp; cases hp
      | some t =>
          rw [hq] at hp
          exact hconv i t hq (by simpa using hp)
    · intro hi
      obtain ⟨t, hq, hst⟩ := hmem i hi
      rw [hq]
      simp [hst]
  have hfil : ((List.range q.length).filter (fun i =>
      match q.get? i with
      | some t => t.status == Status.uploading
      | none => false)).Perm infl := by
    rw [List.perm_ext_iff_of_nodup (List.Nodup.filter _ (List.nodup_range q.length)) hnd]
    intro i
    rw [List.mem_filter, List.mem_range]
    constructor
    · rintro ⟨_, hp⟩
      exact (hpred i).mp hp
    · intro hi
      have hp := (hpred i).mpr hi
      obtain ⟨t, hq, _⟩ := hmem i hi
      have hlt : i < q.length := by
        rcases List.get?_eq_some.mp hq with ⟨hl, _⟩
        exact hl
      exact ⟨hlt, hp⟩
  have hcount : countUploading q = ((List.range q.length).filter (fun i =>
      match q.get? i with
      | some t => t.status == Status.uploading
      | none => false)).length := by
    unfold countUploading
    rw [countP_eq_countP_range, List.countP_eq_length_filter]
  rw [hcount, hfil.length_eq]

/-! ### Invariant preservation -/

lemma get?_of_lt {q : List Task} {i : Nat} (h : i < q.length) : ∃ t, q.get? i = some t := by
  cases hq : q.get? i with
  | none => rw [List.get?_eq_none] at hq; omega
  | some t => exact ⟨t, rfl⟩

lemma restOk_idle (s : AppState) (h : Inv s) : RestOk s.queue (idleIndices s.queue) := by
  constructor
  · intro i hi
    rw [mem_idleIndices] at hi
    obtain ⟨t, hq, hst⟩ := hi
    exact ⟨t, hq, hst, h.idle_isFile i t hq hst⟩
  · exact List.Nodup.filter _ (List.nodup_range _)

lemma Inv_invokeRun (s : AppState) (h : Inv s) : Inv (invokeRun s) := by
  unfold invokeRun
  by_cases hl : s.isGlobalLoading = true
  · simp only [hl, if_true]
    exact h
  · rw [Bool.not_eq_true] at hl
    simp only [hl, Bool.false_eq_true, if_false]
    by_cases hp : idleIndices s.queue = []
    · simp only [hp, if_true]
      have hs : ({ s with isGlobalLoading := false } : AppState) = s := by
        cases s
        simp_all
      rw [hs]
      exact h
    · simp only [hp, if_false]
      have hrn : s.run = none := by
        have hlr := h.load_run
        rw [hl] at hlr
        cases hru : s.run with
        | none => rfl
        | some r => rw [hru] at hlr; cases hlr
      have hinf : s.inflight = [] := h.run_none_inflight hrn
      have hpn : processNext (effectiveLimit s.storedLimit) s.queue 0 s.inflight
          (idleIndices s.queue)
          = (false, launchLoop (effectiveLimit s.storedLimit) s.queue 0 s.inflight
              (idleIndices s.queue)) := by
        unfold processNext
        simp [hp]
      rw [hpn]
      have hro : RestOk s.queue (idleIndices s.queue) := restOk_idle s h
      have hio : InflOk s.queue s.inflight := h.infl_ok
      refine ⟨rfl, ?_, ?_, ?_, ?_, h.polls_nodup, ?_, ?_⟩
      · intro hc; cases hc
      · exact launchLoop_inflOk _ _ _ _ _ hio hro
      · intro i hi t ht
        have hlt : i < s.queue.length := h.polls_lt i hi
        obtain ⟨t0, ht0⟩ := get?_of_lt hlt
        have hst0 := h.polls_status i hi t0 ht0
        have hnidle : i ∉ idleIndices s.queue := by
          rw [mem_idleIndices]
          rintro ⟨u, hu, hui⟩
          rw [ht0] at hu
          cases hu
          rcases hst0 with hh | hh <;> rw [hh] at hui <;> cases hui
        have hfr := launchLoop_frame (effectiveLimit s.storedLimit)
          (idleIndices s.queue) s.queue 0 s.inflight i hnidle
        rw [hfr, ht0] at ht
        cases ht
        exact hst0
      · intro i hi
        rw [launchLoop_queue_length]
        exact h.polls_lt i hi
      · intro i t ht hidle
        rcases launchLoop_point (effectiveLimit s.storedLimit) (idleIndices s.queue)
            s.queue 0 s.inflight i with hfr | ⟨t0, ht0, hup⟩
        · rw [hfr] at ht
          exact h.idle_isFile i t ht hidle
        · rw [hup] at ht
          cases ht
          cases hidle
      · intro r hr
        cases hr
        refine ⟨?_, ?_, ?_, ?_, ?_, ?_, ?_, rfl⟩
        · rw [hinf]
          exact launchLoop_active_eq _ _ _ _ _ rfl
        · exact launchLoop_active_le _ _ _ _ _ (Nat.zero_le _)
        · constructor
          · intro j hj
            have hjr : j ∈ idleIndices s.queue :=
              List.Sublist.mem hj (launchLoop_rest_sublist _ _ _ _ _)
            have hpt := launchLoop_rest_point (effectiveLimit s.storedLimit)
              (idleIndices s.queue) s.queue 0 s.inflight hro.2 j hj
            rw [hpt]
            exact hro.1 j hjr
          · exact List.Nodup.sublist (launchLoop_rest_sublist _ _ _ _ _) hro.2
        · intro j hj
          exact List.Sublist.mem hj (launchLoop_rest_sublist _ _ _ _ _)
        · intro j hj
          rw [launchLoop_queue_length]
          rw [mem_idleIndices] at hj
          obtain ⟨t, ht, _⟩ := hj
          rcases List.get?_eq_some.mp ht with ⟨hlt, _⟩
          exact hlt
        · intro j hj hnr t ht
          obtain ⟨t0, ht0, hup⟩ := launchLoop_consumed (effectiveLimit s.storedLimit)
            (idleIndices s.queue) s.queue 0 s.inflight hro j hj hnr
          rw [hup] at ht
          cases ht
          intro hc
          cases hc
        · intro j hj
          obtain ⟨L, hL, hmem⟩ := launchLoop_inflight_shape (effectiveLimit s.storedLimit)
            (idleIndices s.queue) s.queue 0 s.inflight
          rw [hL] at hj
          rcases List.mem_append.mp hj with hji | hjL
          · rw [hinf] at hji
            cases hji
          · exact hmem j hjL

lemma Inv_finishUpload (s : AppState) (i : Nat) (upd : Task → Task) (addPoll : Bool)
    (hupd : ∀ t, (upd t).status = Status.queued ∨ (upd t).status = Status.error)
    (hpoll : addPoll = true → ∀ t, (upd t).status = Status.queued)
    (h : Inv s) : Inv (finishUpload s i upd addPoll) := by
  unfold finishUpload
  by_cases hmem : i ∈ s.inflight
  · rw [if_pos hmem]
    cases hru : s.run with
    | none => exact h
    | some r =>
        obtain ⟨t, hq, hup⟩ := h.infl_ok.1 i hmem
        obtain ⟨hact, hle, hro, hrsnap, hsnaplt, hcons, hinfsnap, hlim⟩ := h.run_ok r hru
        have hilt : i < s.queue.length := by
          rcases List.get?_eq_some.mp hq with ⟨hl, _⟩
          exact hl
        have hq1i : (updAt s.queue i upd).get? i = some (upd t) :=
          get?_updAt_self _ _ _ _ hq
        have hq1ne : ∀ j, j ≠ i → (updAt s.queue i upd).get? j = s.queue.get? j :=
          fun j hj => get?_updAt_ne _ _ _ _ hj
        have hlen1 : (updAt s.queue i upd).length = s.queue.length := length_updAt _ _ _
        have hinotrest : i ∉ r.rest := by
          intro hir
          obtain ⟨u, hu, hui, _⟩ := hro.1 i hir
          rw [hq] at hu
          cases hu
          rw [hup] at hui
          cases hui
        have hinotpolls : i ∉ s.pendingPolls := by
          intro hip
          rcases h.polls_status i hip t hq with hh | hh <;> rw [hup] at hh <;> cases hh
        have hio1 : InflOk (updAt s.queue i upd) (s.inflight.erase i) := by
          refine ⟨?_, ?_, ?_⟩
          · intro j hj
            have hjne : j ≠ i := by
              intro hji
              subst hji
              exact (List.Nodup.mem_erase_iff h.infl_ok.2.2).mp hj |>.1 rfl
            obtain ⟨u, hu, hust⟩ := h.infl_ok.1 j
              (((List.Nodup.mem_erase_iff h.infl_ok.2.2).mp hj).2)
            exact ⟨u, by rw [hq1ne j hjne]; exact hu, hust⟩
          · intro j u hu hust
            have hjne : j ≠ i := by
              intro hji
              subst hji
              rw [hq1i] at hu
              cases hu
              rcases hupd t with hh | hh <;> rw [hh] at hust <;> cases hust
            rw [hq1ne j hjne] at hu
            exact (List.Nodup.mem_erase_iff h.infl_ok.2.2).mpr
              ⟨hjne, h.infl_ok.2.1 j u hu hust⟩
          · exact List.Nodup.erase i h.infl_ok.2.2
        have hacts : r.active - 1 = (s.inflight.erase i).length := by
          rw [List.length_erase_of_mem hmem, hact]
        have hro1 : RestOk (updAt s.queue i upd) r.rest := by
          refine ⟨?_, hro.2⟩
          intro j hj
          have hjne : j ≠ i := fun hji => hinotrest (hji ▸ hj)
          obtain ⟨u, hu, hui, huf⟩ := hro.1 j hj
          exact ⟨u, by rw [hq1ne j hjne]; exact hu, hui, huf⟩
        have hpolls1 : ∀ j ∈ (if addPoll then s.pendingPolls ++ [i] else s.pendingPolls),
            (∀ u, (updAt s.queue i upd).get? j = some u →
              u.status = Status.queued ∨ u.status = Status.processing) ∧
            j < (updAt s.queue i upd).length := by
          intro j hj
          have hj2 : j ∈ s.pendingPolls ∨ j = i := by
            by_cases hap : addPoll = true
            · rw [hap, if_pos rfl] at hj
              rcases List.mem_append.mp hj with hh | hh
              · exact Or.inl hh
              · exact Or.inr (List.mem_singleton.mp hh)
            · rw [Bool.not_eq_true] at hap
              rw [hap] at hj
              simp only [Bool.false_eq_true, if_false] at hj
              exact Or.inl hj
          rcases hj2 with hh | rfl
          · have hjne : j ≠ i := fun hji => hinotpolls (hji ▸ hh)
            constructor
            · intro u hu
              rw [hq1ne j hjne] at hu
              exact h.polls_status j hh u hu
            · rw [hlen1]
              exact h.polls_lt j hh
          · constructor
            · intro u hu
              rw [hq1i] at hu
              cases hu
              by_cases hap : addPoll = true
              · exact Or.inl (hpoll hap t)
              · rw [Bool.not_eq_true] at hap
                rw [hap] at hj
                simp only [Bool.false_eq_true, if_false] at hj
                exact absurd hj hinotpolls
            · rw [hlen1]
              exact hilt
        have hpollsnd : (if addPoll then s.pendingPolls ++ [i] else s.pendingPolls).Nodup := by
          by_cases hap : addPoll = true
          · rw [hap, if_pos rfl, List.nodup_append]
            exact ⟨h.polls_nodup, List.nodup_singleton i, by simp [hinotpolls]⟩
          · rw [Bool.not_eq_true] at hap
            rw [hap]
            simpa using h.polls_nodup
        have hidle1 : ∀ j u, (updAt s.queue i upd).get? j = some u →
            u.status = Status.idle → u.isFile = true := by
          intro j u hu hui
          by_cases hjne : j = i
          · subst hjne
            rw [hq1i] at hu
            cases hu
            rcases hupd t with hh | hh <;> rw [hh] at hui <;> cases hui
          · rw [hq1ne j hjne] at hu
            exact h.idle_isFile j u hu hui
        have hcons1 : ∀ j ∈ r.snapshot, j ∉ r.rest →
            ∀ u, (updAt s.queue i upd).get? j = some u → u.status ≠ Status.idle := by
          intro j hj hnr u hu
          by_cases hjne : j = i
          · subst hjne
            rw [hq1i] at hu
            cases hu
            rcases hupd t with hh | hh <;> rw [hh] <;> intro hc <;> cases hc
          · rw [hq1ne j hjne] at hu
            exact hcons j hj hnr u hu
        by_cases hres : r.rest = [] ∧ r.active - 1 = 0
        · have hpn : processNext r.limit (updAt s.queue i upd) (r.active - 1)
              (s.inflight.erase i) r.rest
              = (true, ⟨updAt s.queue i upd, r.active - 1, s.inflight.erase i, r.rest⟩) := by
            unfold processNext
            rw [if_pos hres]
          dsimp only
          rw [hpn]
          dsimp only
          simp only [if_pos rfl]
          have hinf1 : s.inflight.erase i = [] := by
            rw [← List.length_eq_zero, ← hacts]
            exact hres.2
          refine ⟨rfl, fun _ => hinf1, hio1, ?_, ?_, hpollsnd, hidle1, ?_⟩
          · intro j hj u hu
            exact (hpolls1 j hj).1 u hu
          · intro j hj
            exact (hpolls1 j hj).2
          · intro r' hr'
            cases hr'
        · have hpn : processNext r.limit (updAt s.queue i upd) (r.active - 1)
              (s.inflight.erase i) r.rest
              = (false, launchLoop r.limit (updAt s.queue i upd) (r.active - 1)
                  (s.inflight.erase i) r.rest) := by
            unfold processNext
            rw [if_neg hres]
          dsimp only
          rw [hpn]
          dsimp only
          simp only [Bool.false_eq_true, if_false]
          have hload : s.isGlobalLoading = true := by
            rw [h.load_run, hru]
            rfl
          refine ⟨hload, ?_, ?_, ?_, ?_, hpollsnd, ?_, ?_⟩
          · intro hc; cases hc
          · exact launchLoop_inflOk _ _ _ _ _ hio1 hro1
          · intro j hj u hu
            have hjnotrest : j ∉ r.rest := by
              intro hjr
              obtain ⟨w, hw, hwst, _⟩ := hro1.1 j hjr
              rcases (hpolls1 j hj).1 w hw with hh | hh <;> rw [hwst] at hh <;> cases hh
            rw [launchLoop_frame _ _ _ _ _ j hjnotrest] at hu
            exact (hpolls1 j hj).1 u hu
          · intro j hj
            rw [launchLoop_queue_length, hlen1]
            have := (hpolls1 j hj).2
            rw [hlen1] at this
            exact this
          · intro j u hu hui
            rcases launchLoop_point r.limit r.rest (updAt s.queue i upd) (r.active - 1)
                (s.inflight.erase i) j with hfr | ⟨u0, hu0, hupq⟩
            · rw [hfr] at hu
              exact hidle1 j u hu hui
            · rw [hupq] at hu
              cases hu
              cases hui
          · intro r' hr'
            cases hr'
            refine ⟨?_, ?_, ?_, ?_, ?_, ?_, ?_, hlim⟩
            · exact launchLoop_active_eq _ _ _ _ _ hacts
            · exact launchLoop_active_le _ _ _ _ _ (le_trans (Nat.sub_le _ _) hle)
            · constructor
              · intro j hj
                have hjr : j ∈ r.rest :=
                  List.Sublist.mem hj (launchLoop_rest_sublist _ _ _ _ _)
                rw [launchLoop_rest_point _ _ _ _ _ hro1.2 j hj]
                exact hro1.1 j hjr
              · exact List.Nodup.sublist (launchLoop_rest_sublist _ _ _ _ _) hro1.2
            · intro j hj
              exact hrsnap j (List.Sublist.mem hj (launchLoop_rest_sublist _ _ _ _ _))
            · intro j hj
              rw [launchLoop_queue_length, hlen1]
              exact hsnaplt j hj
            · intro j hj hnr u hu
              by_cases hjr : j ∈ r.rest
              · obtain ⟨u0, hu0, hupq⟩ := launchLoop_consumed r.limit r.rest
                  (updAt s.queue i upd) (r.active - 1) (s.inflight.erase i) hro1 j hjr hnr
                rw [hupq] at hu
                cases hu
                intro hc
                cases hc
              · rw [launchLoop_frame _ _ _ _ _ j hjr] at hu
                exact hcons1 j hj hjr u hu
            · intro j hj
              obtain ⟨L, hL, hmemL⟩ := launchLoop_inflight_shape r.limit r.rest
                (updAt s.queue i upd) (r.active - 1) (s.inflight.erase i)
              rw [hL] at hj
              rcases List.mem_append.mp hj with hh | hh
              · exact hinfsnap j ((List.Nodup.mem_erase_iff h.infl_ok.2.2).mp hh).2
              · exact hrsnap j (hmemL j hh)
  · rw [if_neg hmem]
    exact h

lemma pollResult_status_cases (r : PollResp) (t : Task) :
    ((pollResult r).1 t).status = Status.queued ∨
    ((pollResult r).1 t).status = Status.processing ∨
    ((pollResult r).1 t).status = Status.done ∨
    ((pollResult r).1 t).status = Status.error := by
  cases r with
  | httpError code body statusText => simp [pollResult]
  | ok d =>
      cases d with
      | mk st ru er => cases st <;> simp [pollResult]

lemma pollResult_cont (r : PollResp) (t : Task) (hc : (pollResult r).2 = true) :
    ((pollResult r).1 t).status = Status.queued ∨
    ((pollResult r).1 t).status = Status.processing := by
  cases r with
  | httpError code body statusText => simp [pollResult] at hc
  | ok d =>
      cases d with
      | mk st ru er => cases st <;> simp [pollResult] at hc ⊢

lemma Inv_stepPoll (s : AppState) (i : Nat) (r : PollResp) (h : Inv s) :
    Inv (stepPoll s i r) := by
  unfold stepPoll
  by_cases hmem : i ∈ s.pendingPolls
  · rw [if_pos hmem]
    dsimp only
    have hilt : i < s.queue.length := h.polls_lt i hmem
    obtain ⟨t, hq⟩ := get?_of_lt hilt
    have hst := h.polls_status i hmem t hq
    have hq1i : (updAt s.queue i (pollResult r).1).get? i = some ((pollResult r).1 t) :=
      get?_updAt_self _ _ _ _ hq
    have hq1ne : ∀ j, j ≠ i → (updAt s.queue i (pollResult r).1).get? j = s.queue.get? j :=
      fun j hj => get?_updAt_ne _ _ _ _ hj
    have hlen1 : (updAt s.queue i (pollResult r).1).length = s.queue.length :=
      length_updAt _ _ _
    have hinotinf : i ∉ s.inflight := by
      intro hin
      obtain ⟨u, hu, hust⟩ := h.infl_ok.1 i hin
      rw [hq] at hu
      cases hu
      rcases hst with hh | hh <;> rw [hh] at hust <;> cases hust
    refine ⟨h.load_run, h.run_none_inflight, ?_, ?_, ?_, ?_, ?_, ?_⟩
    · refine ⟨?_, ?_, h.infl_ok.2.2⟩
      · intro j hj
        have hjne : j ≠ i := fun hji => hinotinf (hji ▸ hj)
        obtain ⟨u, hu, hust⟩ := h.infl_ok.1 j hj
        exact ⟨u, by rw [hq1ne j hjne]; exact hu, hust⟩
      · intro j u hu hust
        by_cases hjne : j = i
        · subst hjne
          rw [hq1i] at hu
          cases hu
          rcases pollResult_status_cases r t with hh | hh | hh | hh <;>
            rw [hh] at hust <;> cases hust
        · rw [hq1ne j hjne] at hu
          exact h.infl_ok.2.1 j u hu hust
    · intro j hj u hu
      by_cases hc : (pollResult r).2 = true
      · rw [if_pos hc] at hj
        rcases List.mem_append.mp hj with hh | hh
        · have hji : j ≠ i ∧ j ∈ s.pendingPolls :=
            (List.Nodup.mem_erase_iff h.polls_nodup).mp hh
          rw [hq1ne j hji.1] at hu
          exact h.polls_status j hji.2 u hu
        · rcases List.mem_singleton.mp hh with rfl
          rw [hq1i] at hu
          cases hu
          exact pollResult_cont r t hc
      · rw [Bool.not_eq_true] at hc
        rw [hc] at hj
        simp only [Bool.false_eq_true, if_false] at hj
        have hji : j ≠ i ∧ j ∈ s.pendingPolls :=
          (List.Nodup.mem_erase_iff h.polls_nodup).mp hj
        rw [hq1ne j hji.1] at hu
        exact h.polls_status j hji.2 u hu
    · intro j hj
      rw [hlen1]
      by_cases hc : (pollResult r).2 = true
      · rw [if_pos hc] at hj
        rcases List.mem_append.mp hj with hh | hh
        · exact h.polls_lt j ((List.Nodup.mem_erase_iff h.polls_nodup).mp hh).2
        · rcases List.mem_singleton.mp hh with rfl
          exact hilt
      · rw [Bool.not_eq_true] at hc
        rw [hc] at hj
        simp only [Bool.false_eq_true, if_false] at hj
        exact h.polls_lt j ((List.Nodup.mem_erase_iff h.polls_nodup).mp hj).2
    · by_cases hc : (pollResult r).2 = true
      · rw [if_pos hc, List.nodup_append]
        refine ⟨List.Nodup.erase i h.polls_nodup, List.nodup_singleton i, ?_⟩
        intro a ha hb
        rcases List.mem_singleton.mp hb with rfl
        exact ((List.Nodup.mem_erase_iff h.polls_nodup).mp ha).1 rfl
      · rw [Bool.not_eq_true] at hc
        rw [hc]
        simpa using List.Nodup.erase i h.polls_nodup
    · intro j u hu hui
      by_cases hjne : j = i
      · subst hjne
        rw [hq1i] at hu
        cases hu
        rcases pollResult_status_cases r t with hh | hh | hh | hh <;>
          rw [hh] at hui <;> cases hui
      · rw [hq1ne j hjne] at hu
        exact h.idle_isFile j u hu hui
    · intro r' hr'
      obtain ⟨hact, hle, hro, hrsnap, hsnaplt, hcons, hinfsnap, hlim⟩ := h.run_ok r' hr'
      have hinotrest : i ∉ r'.rest := by
        intro hir
        obtain ⟨u, hu, hui, _⟩ := hro.1 i hir
        rw [hq] at hu
        cases hu
        rcases hst with hh | hh <;> rw [hh] at hui <;> cases hui
      refine ⟨hact, hle, ?_, hrsnap, ?_, ?_, hinfsnap, hlim⟩
      · refine ⟨?_, hro.2⟩
        intro j hj
        have hjne : j ≠ i := fun hji => hinotrest (hji ▸ hj)
        obtain ⟨u, hu, hui, huf⟩ := hro.1 j hj
        exact ⟨u, by rw [hq1ne j hjne]; exact hu, hui, huf⟩
      · intro j hj
        rw [hlen1]
        exact hsnaplt j hj
      · intro j hj hnr u hu
        by_cases hjne : j = i
        · subst hjne
          rw [hq1i] at hu
          cases hu
          rcases pollResult_status_cases r t with hh | hh | hh | hh <;>
            rw [hh] <;> intro hcx <;> cases hcx
        · rw [hq1ne j hjne] at hu
          exact hcons j hj hnr u hu
  · rw [if_neg hmem]
    exact h

lemma addFilesAux_status (H : List String) :
    ∀ names qn, ∀ t ∈ addFilesAux H qn names,
      t.status = Status.idle ∧ t.isFile = true := by
  intro names
  induction names with
  | nil => intro qn t ht; cases ht
  | cons f fs ih =>
      intro qn t ht
      rcases List.mem_cons.mp ht with rfl | hh
      · exact ⟨rfl, rfl⟩
      · exact ih _ t hh

lemma Inv_stepAddFiles (s : AppState) (names : List String) (h : Inv s) :
    Inv (stepAddFiles s names) := by
  unfold stepAddFiles
  have hget : ∀ j, j < s.queue.length →
      (s.queue ++ addFilesAux s.existingNames (s.queue.map Task.name) names).get? j
        = s.queue.get? j := by
    intro j hj
    exact List.get?_append hj
  have hsplit : ∀ j u,
      (s.queue ++ addFilesAux s.existingNames (s.queue.map Task.name) names).get? j = some u →
      (j < s.queue.length ∧ s.queue.get? j = some u) ∨
        u ∈ addFilesAux s.existingNames (s.queue.map Task.name) names := by
    intro j u hu
    by_cases hj : j < s.queue.length
    · left
      rw [hget j hj] at hu
      exact ⟨hj, hu⟩
    · right
      rw [List.get?_append_right (Nat.le_of_not_lt hj)] at hu
      exact List.get?_mem hu
  have hlt_of_get : ∀ j (u : Task), s.queue.get? j = some u → j < s.queue.length := by
    intro j u hu
    rcases List.get?_eq_some.mp hu with ⟨hl, _⟩
    exact hl
  refine ⟨h.load_run, h.run_none_inflight, ?_, ?_, ?_, h.polls_nodup, ?_, ?_⟩
  · refine ⟨?_, ?_, h.infl_ok.2.2⟩
    · intro j hj
      obtain ⟨u, hu, hust⟩ := h.infl_ok.1 j hj
      exact ⟨u, by rw [hget j (hlt_of_get j u hu)]; exact hu, hust⟩
    · intro j u hu hust
      rcases hsplit j u hu with ⟨hjl, hold⟩ | hnew
      · exact h.infl_ok.2.1 j u hold hust
      · have := (addFilesAux_status s.existingNames names _ u hnew).1
        rw [this] at hust
        cases hust
  · intro j hj u hu
    have hjl := h.polls_lt j hj
    rw [hget j hjl] at hu
    exact h.polls_status j hj u hu
  · intro j hj
    rw [List.length_append]
    exact Nat.lt_of_lt_of_le (h.polls_lt j hj) (Nat.le_add_right _ _)
  · intro j u hu hui
    rcases hsplit j u hu with ⟨hjl, hold⟩ | hnew
    · exact h.idle_isFile j u hold hui
    · exact (addFilesAux_status s.existingNames names _ u hnew).2
  · intro r hr
    obtain ⟨hact, hle, hro, hrsnap, hsnaplt, hcons, hinfsnap, hlim⟩ := h.run_ok r hr
    refine ⟨hact, hle, ?_, hrsnap, ?_, ?_, hinfsnap, hlim⟩
    · refine ⟨?_, hro.2⟩
      intro j hj
      obtain ⟨u, hu, hui, huf⟩ := hro.1 j hj
      exact ⟨u, by rw [hget j (hlt_of_get j u hu)]; exact hu, hui, huf⟩
    · intro j hj
      rw [List.length_append]
      exact Nat.lt_of_lt_of_le (hsnaplt j hj) (Nat.le_add_right _ _)
    · intro j hj hnr u hu
      rcases hsplit j u hu with ⟨hjl, hold⟩ | hnew
      · exact hcons j hj hnr u hold
      · have hjl := hsnaplt j hj
        rw [hget j hjl] at hu
        exact hcons j hj hnr u hu
  
lemma Inv_stepDebounce (s : AppState) (h : Inv s) : Inv (stepDebounce s) := by
  unfold stepDebounce
  have h1 := Inv_invokeRun s h
  exact ⟨h1.load_run, h1.run_none_inflight, h1.infl_ok, h1.polls_status, h1.polls_lt,
    h1.polls_nodup, h1.idle_isFile, h1.run_ok⟩

lemma Inv_step (s : AppState) (e : Event) (h : Inv s) : Inv (step s e) := by
  cases e with
  | invoke => exact Inv_invokeRun s h
  | debounceFire => exact Inv_stepDebounce s h
  | addFiles names => exact Inv_stepAddFiles s names h
  | uploadOk i jobId =>
      exact Inv_finishUpload s i (uploadOkUpd jobId) true
        (fun t => Or.inl rfl) (fun _ t => rfl) h
  | uploadErr i msg =>
      exact Inv_finishUpload s i (uploadErrUpd msg) false
        (fun t => Or.inr rfl) (fun hc => absurd hc (by simp)) h
  | pollResp i r => exact Inv_stepPoll s i r h

lemma Inv_initState (storedLimit : Option Int) (historyNames : List String) :
    Inv (initState storedLimit historyNames) := by
  refine ⟨rfl, fun _ => rfl, ⟨?_, ?_, List.nodup_nil⟩, ?_, ?_, List.nodup_nil, ?_, ?_⟩
  · intro i hi; cases hi
  · intro i t ht; cases ht
  · intro i hi; cases hi
  · intro i hi; cases hi
  · intro i t ht; cases ht
  · intro r hr; cases hr

lemma Inv_foldl (es : List Event) : ∀ s : AppState, Inv s → Inv (es.foldl step s) := by
  induction es with
  | nil => intro s h; exact h
  | cons e es ih => intro s h; exact ih (step s e) (Inv_step s e h)

lemma Inv_runEvents (storedLimit : Option Int) (historyNames : List String)
    (es : List Event) : Inv (runEvents (initState storedLimit historyNames) es) :=
  Inv_foldl es _ (Inv_initState storedLimit historyNames)

lemma storedLimit_step (s : AppState) (e : Event) : (step s e).storedLimit = s.storedLimit := by
  cases e with
  | invoke =>
      show (invokeRun s).storedLimit = s.storedLimit
      unfold invokeRun
      split
      · rfl
      · dsimp only
        split <;> rfl
  | debounceFire =>
      show (invokeRun s).storedLimit = s.storedLimit
      unfold invokeRun
      split
      · rfl
      · dsimp only
        split <;> rfl
  | addFiles names => rfl
  | uploadOk i jobId =>
      show (finishUpload s i (uploadOkUpd jobId) true).storedLimit = s.storedLimit
      unfold finishUpload
      split
      · split <;> first
          | rfl
          | (dsimp only; split <;> rfl)
      · rfl
  | uploadErr i msg =>
      show (finishUpload s i (uploadErrUpd msg) false).storedLimit = s.storedLimit
      unfold finishUpload
      split
      · split <;> first
          | rfl
          | (dsimp only; split <;> rfl)
      · rfl
  | pollResp i r =>
      show (stepPoll s i r).storedLimit = s.storedLimit
      unfold stepPoll
      split
      · rfl
      · rfl

lemma storedLimit_runEvents (storedLimit : Option Int) (historyNames : List String)
    (es : List Event) :
    (runEvents (initState storedLimit historyNames) es).storedLimit = storedLimit := by
  suffices h : ∀ s : AppState, (es.foldl step s).storedLimit = s.storedLimit by
    exact h (initState storedLimit historyNames)
  induction es with
  | nil => intro s; rfl
  | cons e es ih => intro s; rw [List.foldl_cons, ih, storedLimit_step]

/-- C1: the sanitised concurrency limit is at least 1, and in every state
reachable by any event sequence at most that many tasks are simultaneously
in their upload phase; `countUploading` counts only upload-phase tasks, so
detached poll-phase tasks do not count toward the bound. -/
theorem upload_concurrency_bound (storedLimit : Option Int) (historyNames : List String)
    (es : List Event) :
    1 ≤ effectiveLimit storedLimit ∧
    countUploading (runEvents (initState storedLimit historyNames) es).queue
      ≤ effectiveLimit storedLimit := by
  have h := Inv_runEvents storedLimit historyNames es
  constructor
  · cases storedLimit with
    | none => decide
    | some v =>
        simp only [effectiveLimit]
        split
        · omega
        · omega
  · have hcount := countUploading_eq_inflight _ _ h.infl_ok
    rw [hcount]
    cases hru : (runEvents (initState storedLimit historyNames) es).run with
    | none =>
        rw [h.run_none_inflight hru]
        exact Nat.zero_le _
    | some r =>
        obtain ⟨hact, hle, _, _, _, _, _, hlim⟩ := h.run_ok r hru
        rw [← hact]
        rw [storedLimit_runEvents] at hlim
        rw [← hlim]
        exact hle

lemma shouldAutoRun_invokeRun (s : AppState) :
    (invokeRun s).shouldAutoRun = s.shouldAutoRun := by
  unfold invokeRun
  split
  · rfl
  · dsimp only
    split <;> rfl

lemma shouldAutoRun_finishUpload (s : AppState) (i : Nat) (upd : Task → Task)
    (addPoll : Bool) : (finishUpload s i upd addPoll).shouldAutoRun = s.shouldAutoRun := by
  unfold finishUpload
  split
  · split <;> first
      | rfl
      | (dsimp only; split <;> rfl)
  · rfl

lemma shouldAutoRun_stepPoll (s : AppState) (i : Nat) (r : PollResp) :
    (stepPoll s i r).shouldAutoRun = s.shouldAutoRun := by
  unfold stepPoll
  split
  · rfl
  · rfl

/-- C6: invoking the Scheduler while a run is active is a no-op — the state
is returned unchanged, and (by the reachability invariant) an active
BatchRun exists exactly when the loading flag is set, so no second run is
ever created. -/
theorem run_reentrancy_noop (storedLimit : Option Int) (historyNames : List String)
    (es : List Event) (s : AppState)
    (hs : s = runEvents (initState storedLimit historyNames) es)
    (hl : s.isGlobalLoading = true) :
    step s Event.invoke = s ∧ s.run.isSome = true := by
  constructor
  · show invokeRun s = s
    unfold invokeRun
    rw [if_pos hl]
  · have h := Inv_runEvents storedLimit historyNames es
    rw [← hs] at h
    rw [← h.load_run]
    exact hl

/-- Witness for C6 at a concrete reachable state with an active run. -/
theorem run_reentrancy_noop_witness :
    step (runEvents (initState (some 2) []) [Event.addFiles ["a.mp3"], Event.invoke])
        Event.invoke
      = runEvents (initState (some 2) []) [Event.addFiles ["a.mp3"], Event.invoke] ∧
    (runEvents (initState (some 2) [])
        [Event.addFiles ["a.mp3"], Event.invoke]).run.isSome = true :=
  run_reentrancy_noop (some 2) [] [Event.addFiles ["a.mp3"], Event.invoke] _ rfl (by decide)

/-- C9: when the debounce timer fires while a run is active, the fire is a
pure drop — the only state change is clearing the auto-run flag (the guard
in `runBatchLogic` returns immediately) — and no event other than an append
ever sets the flag again. -/
theorem debounce_dropped_when_active (s : AppState) :
    (s.isGlobalLoading = true →
      stepDebounce s = { s with shouldAutoRun := false }) ∧
    (∀ e : Event, s.shouldAutoRun = false → (∀ names, e ≠ Event.addFiles names) →
      (step s e).shouldAutoRun = false) := by
  constructor
  · intro hl
    unfold stepDebounce invokeRun
    rw [if_pos hl]
  · intro e hf hne
    cases e with
    | invoke =>
        show (invokeRun s).shouldAutoRun = false
        rw [shouldAutoRun_invokeRun]
        exact hf
    | debounceFire => rfl
    | addFiles names => exact absurd rfl (hne names)
    | uploadOk i jobId =>
        show (finishUpload s i (uploadOkUpd jobId) true).shouldAutoRun = false
        rw [shouldAutoRun_finishUpload]
        exact hf
    | uploadErr i msg =>
        show (finishUpload s i (uploadErrUpd msg) false).shouldAutoRun = false
        rw [shouldAutoRun_finishUpload]
        exact hf
    | pollResp i r =>
        show (stepPoll s i r).shouldAutoRun = false
        rw [shouldAutoRun_stepPoll]
        exact hf

/-- Witness for C9 at a concrete state with an active run. -/
theorem debounce_dropped_witness :
    stepDebounce (runEvents (initState (some 2) []) [Event.addFiles ["a.mp3"], Event.invoke])
      = { runEvents (initState (some 2) []) [Event.addFiles ["a.mp3"], Event.invoke] with
          shouldAutoRun := false } :=
  (debounce_dropped_when_active _).1 (by decide)

/-- C8: completing an upload with a failure has exactly the same effect on
the batch-level control state (run locals, loading flag, outstanding
uploads, and hence subsequent dispatch) as completing it successfully; the
only difference is the failed task's own record, which receives the error
status and message. -/
theorem upload_failure_isolated (storedLimit : Option Int) (historyNames : List String)
    (es : List Event) (i : Nat) (jobId msg : String) (s : AppState)
    (hs : s = runEvents (initState storedLimit historyNames) es)
    (hmem : i ∈ s.inflight) :
    (step s (Event.uploadErr i msg)).run = (step s (Event.uploadOk i jobId)).run ∧
    (step s (Event.uploadErr i msg)).isGlobalLoading
      = (step s (Event.uploadOk i jobId)).isGlobalLoading ∧
    (step s (Event.uploadErr i msg)).inflight = (step s (Event.uploadOk i jobId)).inflight ∧
    (∀ j, j ≠ i → (step s (Event.uploadErr i msg)).queue.get? j
      = (step s (Event.uploadOk i jobId)).queue.get? j) ∧
    (∃ t, s.queue.get? i = some t ∧
      (step s (Event.uploadErr i msg)).queue.get? i
        = some { t with status := Status.error, error := some msg }) := by
  have h := Inv_runEvents storedLimit historyNames es
  rw [← hs] at h
  obtain ⟨t, hq, hup⟩ := h.infl_ok.1 i hmem
  have hr : ∃ r, s.run = some r := by
    cases hrx : s.run with
    | none => rw [h.run_none_inflight hrx] at hmem; cases hmem
    | some r => exact ⟨r, rfl⟩
  obtain ⟨r, hr⟩ := hr
  obtain ⟨hact, hle, hro, hrsnap, hsnaplt, hcons, hinfsnap, hlim⟩ := h.run_ok r hr
  have hinotrest : i ∉ r.rest := by
    intro hir
    obtain ⟨u, hu, hui, _⟩ := hro.1 i hir
    rw [hq] at hu
    cases hu
    rw [hup] at hui
    cases hui
  have hqei : (updAt s.queue i (uploadErrUpd msg)).get? i = some (uploadErrUpd msg t) :=
    get?_updAt_self _ _ _ _ hq
  have hagree : ∀ j, j ≠ i →
      (updAt s.queue i (uploadErrUpd msg)).get? j
        = (updAt s.queue i (uploadOkUpd jobId)).get? j := by
    intro j hj
    rw [get?_updAt_ne _ _ _ _ hj, get?_updAt_ne _ _ _ _ hj]
  have hagreer : ∀ j ∈ r.rest,
      (updAt s.queue i (uploadErrUpd msg)).get? j
        = (updAt s.queue i (uploadOkUpd jobId)).get? j := by
    intro j hj
    exact hagree j (fun hji => hinotrest (hji ▸ hj))
  simp only [step]
  unfold finishUpload
  simp only [if_pos hmem, hr]
  by_cases hres : r.rest = [] ∧ r.active - 1 = 0
  · have hpne : processNext r.limit (updAt s.queue i (uploadErrUpd msg)) (r.active - 1)
        (s.inflight.erase i) r.rest
        = (true, ⟨updAt s.queue i (uploadErrUpd msg), r.active - 1,
            s.inflight.erase i, r.rest⟩) := by
      unfold processNext
      rw [if_pos hres]
    have hpno : processNext r.limit (updAt s.queue i (uploadOkUpd jobId)) (r.active - 1)
        (s.inflight.erase i) r.rest
        = (true, ⟨updAt s.queue i (uploadOkUpd jobId), r.active - 1,
            s.inflight.erase i, r.rest⟩) := by
      unfold processNext
      rw [if_pos hres]
    rw [hpne, hpno]
    dsimp only
    simp only [if_pos rfl]
    exact ⟨rfl, rfl, rfl, fun j hj => hagree j hj, ⟨t, hq, hqei⟩⟩
  · have hpne : processNext r.limit (updAt s.queue i (uploadErrUpd msg)) (r.active - 1)
        (s.inflight.erase i) r.rest
        = (false, launchLoop r.limit (updAt s.queue i (uploadErrUpd msg)) (r.active - 1)
            (s.inflight.erase i) r.rest) := by
      unfold processNext
      rw [if_neg hres]
    have hpno : processNext r.limit (updAt s.queue i (uploadOkUpd jobId)) (r.active - 1)
        (s.inflight.erase i) r.rest
        = (false, launchLoop r.limit (updAt s.queue i (uploadOkUpd jobId)) (r.active - 1)
            (s.inflight.erase i) r.rest) := by
      unfold processNext
      rw [if_neg hres]
    rw [hpne, hpno]
    dsimp only
    simp only [Bool.false_eq_true, if_false]
    obtain ⟨hca, hci, hcr, hcq⟩ := launchLoop_congr r.limit r.rest
      (updAt s.queue i (uploadErrUpd msg)) (updAt s.queue i (uploadOkUpd jobId))
      (r.active - 1) (s.inflight.erase i) hagreer
    refine ⟨?_, trivial, hci, ?_, ?_⟩
    · rw [hca, hcr]
    · intro j hj
      exact hcq j (hagree j hj)
    · refine ⟨t, hq, ?_⟩
      rw [launchLoop_frame _ _ _ _ _ i hinotrest]
      exact hqei

lemma run_stepPoll (s : AppState) (i : Nat) (r : PollResp) : (stepPoll s i r).run = s.run := by
  unfold stepPoll
  split
  · rfl
  · rfl

lemma processNext_fst_true (limit : Nat) (q : List Task) (a : Nat) (infl rest : List Nat) :
    (processNext limit q a infl rest).1 = true ↔ rest = [] ∧ a = 0 := by
  unfold processNext
  by_cases hc : rest = [] ∧ a = 0
  · rw [if_pos hc]
    simp [hc]
  · rw [if_neg hc]
    simp [hc]

lemma invokeRun_of_loading (s : AppState) (hl : s.isGlobalLoading = true) :
    invokeRun s = s := by
  unfold invokeRun
  rw [if_pos hl]

/-- C5 (amended): provided no removal or clear interleaves with the run —
the removal-free alphabet `Event` — the candidate set of a run is
snapshotted once at invocation as exactly the then-idle indices; every
dispatched upload comes from the snapshot; snapshot indices always lie
below the current queue length, so entries appended after invocation (at
indices past the end) are never in the snapshot and the append leaves the
run untouched; and when a run resolves, every snapshotted task has left the
Idle state. Over the full alphabet `EventR` the original claim fails:
`snapshot_removal_counterexample` dispatches a task appended after
invocation. -/
theorem snapshot_run_dispatch (storedLimit : Option Int) (historyNames : List String)
    (es : List Event) (s : AppState)
    (hs : s = runEvents (initState storedLimit historyNames) es) :
    (s.isGlobalLoading = false → idleIndices s.queue ≠ [] →
      ∃ r, (invokeRun s).run = some r ∧ r.snapshot = idleIndices s.queue) ∧
    (∀ r, s.run = some r → ∀ i ∈ s.inflight, i ∈ r.snapshot) ∧
    (∀ r, s.run = some r → ∀ i ∈ r.snapshot, i < s.queue.length) ∧
    (∀ r names2, s.run = some r → (stepAddFiles s names2).run = some r ∧
      ∀ j, s.queue.length ≤ j → j ∉ r.snapshot) ∧
    (∀ e r, s.run = some r → (step s e).run = none →
      ∀ i ∈ r.snapshot, ∃ t, (step s e).queue.get? i = some t ∧
        t.status ≠ Status.idle) := by
  have h := Inv_runEvents storedLimit historyNames es
  rw [← hs] at h
  refine ⟨?_, ?_, ?_, ?_, ?_⟩
  · intro hl hp
    unfold invokeRun
    rw [hl]
    simp only [Bool.false_eq_true, if_false]
    rw [if_neg hp]
    exact ⟨_, rfl, rfl⟩
  · intro r hr
    exact (h.run_ok r hr).2.2.2.2.2.2.1
  · intro r hr
    exact (h.run_ok r hr).2.2.2.2.1
  · intro r names2 hr
    refine ⟨hr, ?_⟩
    intro j hj hjs
    have := (h.run_ok r hr).2.2.2.2.1 j hjs
    omega
  · intro e r hr hnone i hi
    have hl : s.isGlobalLoading = true := by
      rw [h.load_run, hr]
      rfl
    obtain ⟨hact, hle, hro, hrsnap, hsnaplt, hcons, hinfsnap, hlim⟩ := h.run_ok r hr
    cases e with
    | invoke =>
        rw [show step s Event.invoke = invokeRun s from rfl, invokeRun_of_loading s hl,
          hr] at hnone
        cases hnone
    | debounceFire =>
        have : (step s Event.debounceFire).run = s.run := by
          show ({ invokeRun s with shouldAutoRun := false } : AppState).run = s.run
          rw [show ({ invokeRun s with shouldAutoRun := false } : AppState).run
            = (invokeRun s).run from rfl, invokeRun_of_loading s hl]
        rw [this, hr] at hnone
        cases hnone
    | addFiles names2 =>
        rw [show (step s (Event.addFiles names2)).run = s.run from rfl, hr] at hnone
        cases hnone
    | pollResp j pr =>
        rw [show step s (Event.pollResp j pr) = stepPoll s j pr from rfl,
          run_stepPoll, hr] at hnone
        cases hnone
    | uploadOk j jobId =>
        rw [show step s (Event.uploadOk j jobId)
          = finishUpload s j (uploadOkUpd jobId) true from rfl] at hnone ⊢
        unfold finishUpload at hnone ⊢
        by_cases hmem : j ∈ s.inflight
        · simp only [if_pos hmem, hr] at hnone ⊢
          by_cases hpn : (processNext r.limit (updAt s.queue j (uploadOkUpd jobId))
              (r.active - 1) (s.inflight.erase j) r.rest).1 = true
          · simp only [if_pos hpn] at hnone ⊢
            obtain ⟨hrest, _⟩ := (processNext_fst_true _ _ _ _ _).mp hpn
            have hinr : i ∉ r.rest := by rw [hrest]; intro hc; cases hc
            have hilt : i < s.queue.length := hsnaplt i hi
            by_cases hij : i = j
            · subst hij
              obtain ⟨t, hq⟩ := get?_of_lt hilt
              refine ⟨uploadOkUpd jobId t, get?_updAt_self _ _ _ _ hq, ?_⟩
              intro hc
              cases hc
            · obtain ⟨t, hq⟩ := get?_of_lt hilt
              refine ⟨t, ?_, hcons i hi hinr t hq⟩
              rw [get?_updAt_ne _ _ _ _ hij]
              exact hq
          · simp only [hpn, Bool.false_eq_true, if_false] at hnone
            cases hnone
        · simp only [if_neg hmem] at hnone
          rw [hr] at hnone
          cases hnone
    | uploadErr j msg =>
        rw [show step s (Event.uploadErr j msg)
          = finishUpload s j (uploadErrUpd msg) false from rfl] at hnone ⊢
        unfold finishUpload at hnone ⊢
        by_cases hmem : j ∈ s.inflight
        · simp only [if_pos hmem, hr] at hnone ⊢
          by_cases hpn : (processNext r.limit (updAt s.queue j (uploadErrUpd msg))
              (r.active - 1) (s.inflight.erase j) r.rest).1 = true
          · simp only [if_pos hpn] at hnone ⊢
            obtain ⟨hrest, _⟩ := (processNext_fst_true _ _ _ _ _).mp hpn
            have hinr : i ∉ r.rest := by rw [hrest]; intro hc; cases hc
            have hilt : i < s.queue.length := hsnaplt i hi
            by_cases hij : i = j
            · subst hij
              obtain ⟨t, hq⟩ := get?_of_lt hilt
              refine ⟨uploadErrUpd msg t, get?_updAt_self _ _ _ _ hq, ?_⟩
              intro hc
              cases hc
            · obtain ⟨t, hq⟩ := get?_of_lt hilt
              refine ⟨t, ?_, hcons i hi hinr t hq⟩
              rw [get?_updAt_ne _ _ _ _ hij]
              exact hq
          · simp only [hpn, Bool.false_eq_true, if_false] at hnone
            cases hnone
        · simp only [if_neg hmem] at hnone
          rw [hr] at hnone
          cases hnone

lemma invokeRun_queue_frozen (s : AppState) (i : Nat) (t : Task)
    (ht : s.queue.get? i = some t) (hni : t.status ≠ Status.idle) :
    (invokeRun s).queue.get? i = some t := by
  unfold invokeRun
  by_cases hl : s.isGlobalLoading = true
  · rw [if_pos hl]
    exact ht
  · rw [Bool.not_eq_true] at hl
    rw [hl]
    simp only [Bool.false_eq_true, if_false]
    by_cases hp : idleIndices s.queue = []
    · rw [if_pos hp]
      exact ht
    · rw [if_neg hp]
      dsimp only
      have hnid : i ∉ idleIndices s.queue := by
        rw [mem_idleIndices]
        rintro ⟨u, hu, hui⟩
        rw [ht] at hu
        cases hu
        exact hni hui
      have hpn : processNext (effectiveLimit s.storedLimit) s.queue 0 s.inflight
          (idleIndices s.queue)
          = (false, launchLoop (effectiveLimit s.storedLimit) s.queue 0 s.inflight
              (idleIndices s.queue)) := by
        unfold processNext
        simp [hp]
      rw [hpn]
      dsimp only
      rw [launchLoop_frame _ _ _ _ _ i hnid]
      exact ht

lemma finishUpload_queue_frozen (s : AppState) (h : Inv s) (j : Nat) (upd : Task → Task)
    (addPoll : Bool)
    (hupd : ∀ u, (upd u).status = Status.queued ∨ (upd u).status = Status.error)
    (i : Nat) (t : Task) (ht : s.queue.get? i = some t) :
    ((t.status = Status.done ∨ t.status = Status.error) →
      (finishUpload s j upd addPoll).queue.get? i = some t) ∧
    (t.status ≠ Status.idle →
      ∃ t2, (finishUpload s j upd addPoll).queue.get? i = some t2 ∧
        t2.status ≠ Status.idle) := by
  unfold finishUpload
  by_cases hmem : j ∈ s.inflight
  · rw [if_pos hmem]
    cases hru : s.run with
    | none => exact ⟨fun _ => ht, fun hni => ⟨t, ht, hni⟩⟩
    | some r =>
        dsimp only
        obtain ⟨u, hu, hust⟩ := h.infl_ok.1 j hmem
        obtain ⟨hact, hle, hro, hrsnap2, hsnaplt2, hcons2, hinfsnap2, hlim2⟩ := h.run_ok r hru
        have hq1 : t.status ≠ Status.idle → ∃ t2,
            (updAt s.queue j upd).get? i = some t2 ∧ t2.status ≠ Status.idle := by
          intro hni
          by_cases hij : i = j
          · subst hij
            rw [ht] at hu
            cases hu
            refine ⟨upd t, get?_updAt_self _ _ _ _ ht, ?_⟩
            rcases hupd t with hh | hh <;> rw [hh] <;> intro hc <;> cases hc
          · exact ⟨t, by rw [get?_updAt_ne _ _ _ _ hij]; exact ht, hni⟩
        have hq1t : (t.status = Status.done ∨ t.status = Status.error) →
            (updAt s.queue j upd).get? i = some t := by
          intro hde
          have hij : i ≠ j := by
            intro hij
            subst hij
            rw [ht] at hu
            cases hu
            rcases hde with hh | hh <;> rw [hh] at hust <;> cases hust
          rw [get?_updAt_ne _ _ _ _ hij]
          exact ht
        have hinr : t.status ≠ Status.idle → i ∉ r.rest := by
          intro hni hir
          obtain ⟨w, hw, hwi, _⟩ := hro.1 i hir
          rw [ht] at hw
          cases hw
          exact hni hwi
        by_cases hpn : (processNext r.limit (updAt s.queue j upd) (r.active - 1)
            (s.inflight.erase j) r.rest).1 = true
        · simp only [if_pos hpn]
          exact ⟨hq1t, hq1⟩
        · simp only [hpn, Bool.false_eq_true, if_false]
          have hcond : ¬(r.rest = [] ∧ r.active - 1 = 0) :=
            fun hc => hpn ((processNext_fst_true _ _ _ _ _).mpr hc)
          have hpsnd : (processNext r.limit (updAt s.queue j upd) (r.active - 1)
              (s.inflight.erase j) r.rest).2
              = launchLoop r.limit (updAt s.queue j upd) (r.active - 1)
                  (s.inflight.erase j) r.rest := by
            unfold processNext
            rw [if_neg hcond]
          constructor
          · intro hde
            have hni : t.status ≠ Status.idle := by
              rcases hde with hh | hh <;> rw [hh] <;> intro hc <;> cases hc
            rw [hpsnd, launchLoop_frame _ _ _ _ _ i (hinr hni)]
            exact hq1t hde
          · intro hni
            obtain ⟨t2, ht2, ht2n⟩ := hq1 hni
            exact ⟨t2, by rw [hpsnd, launchLoop_frame _ _ _ _ _ i (hinr hni)]; exact ht2,
              ht2n⟩
  · rw [if_neg hmem]
    exact ⟨fun _ => ht, fun hni => ⟨t, ht, hni⟩⟩

lemma step_status_frozen (s : AppState) (h : Inv s) (e : Event) (i : Nat) (t : Task)
    (ht : s.queue.get? i = some t) :
    ((t.status = Status.done ∨ t.status = Status.error) →
      (step s e).queue.get? i = some t) ∧
    (t.status ≠ Status.idle →
      ∃ t2, (step s e).queue.get? i = some t2 ∧ t2.status ≠ Status.idle) := by
  have hterm_ne : (t.status = Status.done ∨ t.status = Status.error) →
      t.status ≠ Status.idle := by
    rintro (hh | hh) <;> rw [hh] <;> intro hc <;> cases hc
  cases e with
  | invoke =>
      refine ⟨?_, ?_⟩
      · intro hde
        exact invokeRun_queue_frozen s i t ht (hterm_ne hde)
      · intro hni
        exact ⟨t, invokeRun_queue_frozen s i t ht hni, hni⟩
  | debounceFire =>
      have hq : (step s Event.debounceFire).queue = (invokeRun s).queue := rfl
      refine ⟨?_, ?_⟩
      · intro hde
        rw [hq]
        exact invokeRun_queue_frozen s i t ht (hterm_ne hde)
      · intro hni
        exact ⟨t, by rw [hq]; exact invokeRun_queue_frozen s i t ht hni, hni⟩
  | addFiles names =>
      have hilt : i < s.queue.length := by
        rcases List.get?_eq_some.mp ht with ⟨hl, _⟩
        exact hl
      have hq : (step s (Event.addFiles names)).queue.get? i = some t := by
        show (s.queue ++ addFilesAux s.existingNames (s.queue.map Task.name) names).get? i
          = some t
        rw [List.get?_append hilt]
        exact ht
      exact ⟨fun _ => hq, fun hni => ⟨t, hq, hni⟩⟩
  | pollResp j pr =>
      by_cases hmem : j ∈ s.pendingPolls
      · have hq : (step s (Event.pollResp j pr)).queue
            = updAt s.queue j (pollResult pr).1 := by
          show (stepPoll s j pr).queue = _
          unfold stepPoll
          rw [if_pos hmem]
        have hjlt := h.polls_lt j hmem
        obtain ⟨u, hu⟩ := get?_of_lt hjlt
        have hust := h.polls_status j hmem u hu
        refine ⟨?_, ?_⟩
        · intro hde
          rw [hq]
          have hij : i ≠ j := by
            intro hij
            subst hij
            rw [ht] at hu
            cases hu
            rcases hde with hh | hh <;> rcases hust with hh2 | hh2 <;>
              rw [hh] at hh2 <;> cases hh2
          rw [get?_updAt_ne _ _ _ _ hij]
          exact ht
        · intro hni
          by_cases hij : i = j
          · subst hij
            rw [ht] at hu
            cases hu
            refine ⟨(pollResult pr).1 t, by rw [hq]; exact get?_updAt_self _ _ _ _ ht, ?_⟩
            rcases pollResult_status_cases pr t with hh | hh | hh | hh <;>
              rw [hh] <;> intro hc <;> cases hc
          · exact ⟨t, by rw [hq, get?_updAt_ne _ _ _ _ hij]; exact ht, hni⟩
      · have hq : step s (Event.pollResp j pr) = s := by
          show stepPoll s j pr = s
          unfold stepPoll
          rw [if_neg hmem]
        rw [hq]
        exact ⟨fun _ => ht, fun hni => ⟨t, ht, hni⟩⟩
  | uploadOk j jobId =>
      exact finishUpload_queue_frozen s h j (uploadOkUpd jobId) true
        (fun u => Or.inl rfl) i t ht
  | uploadErr j msg =>
      exact finishUpload_queue_frozen s h j (uploadErrUpd msg) false
        (fun u => Or.inr rfl) i t ht

lemma foldl_status_frozen (es2 : List Event) (i : Nat) :
    ∀ s : AppState, Inv s → ∀ t : Task, s.queue.get? i = some t →
      ((t.status = Status.done ∨ t.status = Status.error) →
        (es2.foldl step s).queue.get? i = some t) ∧
      (t.status ≠ Status.idle →
        ∃ t2, (es2.foldl step s).queue.get? i = some t2 ∧ t2.status ≠ Status.idle) := by
  induction es2 with
  | nil => intro s _ t ht; exact ⟨fun _ => ht, fun hni => ⟨t, ht, hni⟩⟩
  | cons e es2 ih =>
      intro s h t ht
      obtain ⟨hde1, hni1⟩ := step_status_frozen s h e i t ht
      constructor
      · intro hde
        exact (ih (step s e) (Inv_step s e h) t (hde1 hde)).1 hde
      · intro hni
        obtain ⟨t2, ht2, ht2n⟩ := hni1 hni
        exact (ih (step s e) (Inv_step s e h) t2 ht2).2 ht2n

/-- C7 (amended): provided no removal or clear interleaves — the
removal-free alphabet `Event` — once a task is Done or Error, no further
event sequence ever changes its status (the whole record is frozen), and a
task whose status has left Idle never returns to Idle under any further
event sequence. Over the full alphabet `EventR` the original claim fails:
`status_removal_counterexample` flips a Done task back to Processing via a
stale positional poll after a removal. -/
theorem status_monotonic (storedLimit : Option Int) (historyNames : List String)
    (es es2 : List Event) (i : Nat) (t : Task)
    (ht : (runEvents (initState storedLimit historyNames) es).queue.get? i = some t) :
    ((t.status = Status.done ∨ t.status = Status.error) →
      ∃ t2, (runEvents (runEvents (initState storedLimit historyNames) es) es2).queue.get? i
          = some t2 ∧ t2.status = t.status) ∧
    (t.status ≠ Status.idle →
      ∃ t2, (runEvents (runEvents (initState storedLimit historyNames) es) es2).queue.get? i
          = some t2 ∧ t2.status ≠ Status.idle) := by
  have h := Inv_runEvents storedLimit historyNames es
  obtain ⟨hde, hni⟩ := foldl_status_frozen es2 i _ h t ht
  constructor
  · intro hterm
    exact ⟨t, hde hterm, rfl⟩
  · exact hni

/-- Witness for C7: a completed task stays Done across further events. -/
theorem status_monotonic_witness :
    ∃ t2, (runEvents (runEvents (initState (some 2) [])
        [Event.addFiles ["a.mp3"], Event.invoke, Event.uploadOk 0 "j0",
          Event.pollResp 0 (PollResp.ok ⟨JobStatus.completed, "/r/1", none⟩)])
        [Event.invoke, Event.addFiles ["b.mp3"]]).queue.get? 0 = some t2 ∧
      t2.status = Status.done := by
  have := (status_monotonic (some 2) [] [Event.addFiles ["a.mp3"], Event.invoke,
      Event.uploadOk 0 "j0",
      Event.pollResp 0 (PollResp.ok ⟨JobStatus.completed, "/r/1", none⟩)]
      [Event.invoke, Event.addFiles ["b.mp3"]] 0
      { name := "a.mp3", isFile := true, status := Status.done, jobId := some "j0",
        resultUrl := some "http://localhost:8000/r/1", error := none }
      (by decide)).1 (Or.inl rfl)
  simpa using this

/-- Witness for C2 at concrete colliding inputs. -/
theorem resolver_avoids_queue_and_history_witness :
    getUniqueFileName "essay.mp3" ["essay.mp3"] ["b"] ∉ (["essay.mp3"] : List String) ∧
    (stemExt (getUniqueFileName "essay.mp3" ["essay.mp3"] ["b"])).1
      ∉ (["b"] : List String) :=
  resolver_avoids_queue_and_history "essay.mp3" ["essay.mp3"] ["b"]

/-- Witness for C3: the collision branch is reachable at a concrete input. -/
theorem resolver_counter_format_witness :
    ∃ c, 1 ≤ c ∧ getUniqueFileName "essay.mp3" ["essay.mp3"] []
      = candName (stemExt "essay.mp3").1 (stemExt "essay.mp3").2 c :=
  (resolver_counter_format "essay.mp3" ["essay.mp3"] []).2.1 (by decide)

/-- Witness for C4 at a concrete task and a non-empty failure reason. -/
theorem poll_sequences_witness :
    (pollRun ⟨"a.mp3", true, Status.queued, some "j0", none, none⟩
      [PollResp.ok ⟨JobStatus.queued, "", none⟩,
        PollResp.ok ⟨JobStatus.failed, "", some "bad audio"⟩]).error
      = some "bad audio" :=
  (poll_sequences ⟨"a.mp3", true, Status.queued, some "j0", none, none⟩
    "" "" "" "" "" none none none none "/r/1" "bad audio").2.2.2.2.1 (by decide)

/-- Witness for C5: a concrete invocation snapshots the idle tasks. -/
theorem snapshot_run_dispatch_witness :
    ∃ r, (invokeRun (runEvents (initState (some 2) [])
        [Event.addFiles ["a.mp3"]])).run = some r ∧
      r.snapshot = idleIndices (runEvents (initState (some 2) [])
        [Event.addFiles ["a.mp3"]]).queue :=
  (snapshot_run_dispatch (some 2) [] [Event.addFiles ["a.mp3"]] _ rfl).1
    (by decide) (by decide)

/-- Witness for C8 at a concrete run with an in-flight upload. -/
theorem upload_failure_isolated_witness :
    (step (runEvents (initState (some 2) [])
        [Event.addFiles ["a.mp3", "b.mp3", "c.mp3"], Event.invoke])
        (Event.uploadErr 0 "boom")).run
      = (step (runEvents (initState (some 2) [])
          [Event.addFiles ["a.mp3", "b.mp3", "c.mp3"], Event.invoke])
          (Event.uploadOk 0 "j0")).run ∧
    (step (runEvents (initState (some 2) [])
        [Event.addFiles ["a.mp3", "b.mp3", "c.mp3"], Event.invoke])
        (Event.uploadErr 0 "boom")).inflight
      = (step (runEvents (initState (some 2) [])
          [Event.addFiles ["a.mp3", "b.mp3", "c.mp3"], Event.invoke])
          (Event.uploadOk 0 "j0")).inflight := by
  have := upload_failure_isolated (some 2) []
    [Event.addFiles ["a.mp3", "b.mp3", "c.mp3"], Event.invoke] 0 "j0" "boom" _ rfl
    (by decide)
  exact ⟨this.1, this.2.2.1⟩

/-- Counterexample for C4 as originally stated: when the server reports
`failed` with the empty string as its reason, the stored error message is
the fallback `Job failed on server`, not the server-supplied reason
(`jobData.error || "Job failed on server"` treats `""` as falsy). -/
theorem poll_failed_empty_reason_counterexample :
    (pollRun ⟨"a.mp3", true, Status.queued, some "j0", none, none⟩
      [PollResp.ok ⟨JobStatus.queued, "", none⟩,
        PollResp.ok ⟨JobStatus.failed, "", some ""⟩]).error
      = some "Job failed on server" ∧
    (pollRun ⟨"a.mp3", true, Status.queued, some "j0", none, none⟩
      [PollResp.ok ⟨JobStatus.queued, "", none⟩,
        PollResp.ok ⟨JobStatus.failed, "", some ""⟩]).error
      ≠ some "" := by
  refine ⟨by decide, by decide⟩

/-- Counterexample for C5 as originally stated, over the full alphabet with
removal: with limit 1, the run snapshots the three idle tasks
`a.mp3`, `b.mp3`, `c.mp3` (no `d.mp3` exists at invocation); removing index
1 mid-run shifts the queue, `d.mp3` is appended after invocation at index
2, and the still-active run then dispatches it — snapshot entry 2
re-points to the appended task, so a task appended after invocation is
dispatched by that run. -/
theorem snapshot_removal_counterexample :
    (runEventsR (initState (some 1) [])
      [EventR.base (Event.addFiles ["a.mp3", "b.mp3", "c.mp3"]),
        EventR.base Event.invoke]).queue.map Task.name
      = ["a.mp3", "b.mp3", "c.mp3"] ∧
    (runEventsR (initState (some 1) [])
      [EventR.base (Event.addFiles ["a.mp3", "b.mp3", "c.mp3"]),
        EventR.base Event.invoke, EventR.removeFile 1,
        EventR.base (Event.addFiles ["d.mp3"]),
        EventR.base (Event.uploadOk 0 "j0"),
        EventR.base (Event.uploadOk 1 "j1")]).run.isSome = true ∧
    (runEventsR (initState (some 1) [])
      [EventR.base (Event.addFiles ["a.mp3", "b.mp3", "c.mp3"]),
        EventR.base Event.invoke, EventR.removeFile 1,
        EventR.base (Event.addFiles ["d.mp3"]),
        EventR.base (Event.uploadOk 0 "j0"),
        EventR.base (Event.uploadOk 1 "j1")]).queue.get? 2
      = some ⟨"d.mp3", true, Status.uploading, none, none, none⟩ := by
  refine ⟨by decide, by decide, by decide⟩

/-- Counterexample for C7 as originally stated, over the full alphabet with
removal: after the initial trace the task `b.mp3` is Done at index 1; the
queued task at index 0 is then removed, shifting `b.mp3` to index 0, and
the removed task's still-pending poll resumes with `processing` against its
captured index — overwriting the Done task's status with Processing. -/
theorem status_removal_counterexample :
    (runEventsR (initState (some 2) [])
      [EventR.base (Event.addFiles ["a.mp3", "b.mp3"]),
        EventR.base Event.invoke,
        EventR.base (Event.uploadOk 0 "ja"),
        EventR.base (Event.uploadOk 1 "jb"),
        EventR.base (Event.pollResp 1
          (PollResp.ok ⟨JobStatus.completed, "/r/b", none⟩))]).queue.get? 1
      = some ⟨"b.mp3", true, Status.done, some "jb",
          some "http://localhost:8000/r/b", none⟩ ∧
    (runEventsR (initState (some 2) [])
      [EventR.base (Event.addFiles ["a.mp3", "b.mp3"]),
        EventR.base Event.invoke,
        EventR.base (Event.uploadOk 0 "ja"),
        EventR.base (Event.uploadOk 1 "jb"),
        EventR.base (Event.pollResp 1
          (PollResp.ok ⟨JobStatus.completed, "/r/b", none⟩)),
        EventR.removeFile 0,
        EventR.base (Event.pollResp 0
          (PollResp.ok ⟨JobStatus.processing, "", none⟩))]).queue.get? 0
      = some ⟨"b.mp3", true, Status.processing, some "jb",
          some "http://localhost:8000/r/b", none⟩ := by
  refine ⟨by decide, by decide⟩

end ScoreReading